import Mathlib

/-!
Verification of the PII-Anonymizer backend core.

Python strings are modelled as lists of Unicode code points (`List Nat`),
Python dicts as insertion-ordered association lists.  The embedded
functions follow `backend/app/services/anonymizer.py`,
`backend/app/services/pii_detector.py`, `backend/app/services/encryption.py`
and `backend/app/routers/decrypt.py`.
-/

namespace PIIAnon

/-- Python strings modelled as lists of Unicode code points. -/
abbrev Str := List Nat

/-- Code-point model of a Lean string literal. -/
def str (s : String) : Str := s.data.map Char.toNat

/-- Little-endian decimal digits, structurally recursive on a fuel bound so
that it reduces inside the kernel; agrees with `Nat.digits 10` for
`n ≤ fuel` (proved below). -/
def digitsAux : Nat → Nat → List Nat
  | _, 0 => []
  | 0, _ + 1 => []
  | fuel + 1, n + 1 => ((n + 1) % 10) :: digitsAux fuel ((n + 1) / 10)

/-- Decimal numeral of a natural number, as code points (Python `str(n)`). -/
def numeral (n : Nat) : Str :=
  if n = 0 then [48] else (digitsAux n n).reverse.map (fun d => d + 48)

/-- Lookup in an insertion-ordered association list (Python `d[k]` / `k in d`). -/
def lookupA {α β : Type} [DecidableEq α] (k : α) : List (α × β) → Option β
  | [] => none
  | (k', v) :: rest => if k' = k then some v else lookupA k rest

/-- Update of an insertion-ordered association list (Python `d[k] = v`):
replace in place when the key exists, else append at the end. -/
def aset {α β : Type} [DecidableEq α] (k : α) (v : β) : List (α × β) → List (α × β)
  | [] => [(k, v)]
  | (k', v') :: rest => if k' = k then (k, v) :: rest else (k', v') :: aset k v rest

/-- A detected PII entity: the dicts produced by `PIIDetector` and consumed by
`Anonymizer` (`text`, `start`, `end`, `type`, `detection_method`; the Python
key `end` is called `stop` here because `end` is a Lean keyword.  The
`confidence` float is not used by any embedded operation and is omitted). -/
structure Entity where
  text : Str
  start : Nat
  stop : Nat
  type : Str
  method : Str
  deriving DecidableEq, Repr

/-- Mutable state of an `Anonymizer` instance: `placeholder_counters`
(a `defaultdict(int)`), `mapping` (original → placeholder) and
`reverse_mapping` (placeholder → original). -/
structure AnonState where
  counters : List (Str × Nat)
  mapping : List (Str × Str)
  reverse_mapping : List (Str × Str)
  deriving DecidableEq, Repr

/-- A fresh `Anonymizer()`. -/
def AnonState.init : AnonState := ⟨[], [], []⟩

/-- `Anonymizer._format_placeholder`. -/
def format_placeholder (entity_type : Str) (count : Nat) : Str :=
  if entity_type = str "PERSON" ∨ entity_type = str "ORG" ∨ entity_type = str "GPE" ∨
      entity_type = str "LOC" ∨ entity_type = str "FAC" then
    if entity_type = str "PERSON" then
      str "[PERSON_" ++ numeral count ++ str "]"
    else if entity_type = str "ORG" then
      -- chr(64 + count): 'A', 'B', 'C', ...
      str "[COMPANY_" ++ [64 + count] ++ str "]"
    else
      str "[" ++ entity_type ++ str "_" ++ numeral count ++ str "]"
  else
    str "[" ++ entity_type ++ str "_" ++ numeral count ++ str "]"

/-- `Anonymizer._get_placeholder`: placeholder for a value, plus updated state. -/
def get_placeholder (st : AnonState) (original_text : Str) (entity_type : Str) :
    Str × AnonState :=
  match lookupA original_text st.mapping with
  | some ph => (ph, st)
  | none =>
    let count := (lookupA entity_type st.counters).getD 0 + 1
    let ph := format_placeholder entity_type count
    (ph, { counters := aset entity_type count st.counters,
           mapping := aset original_text ph st.mapping,
           reverse_mapping := aset ph original_text st.reverse_mapping })

/-- Python splice `text[:start] + repl + text[end:]`. -/
def splice (s : Str) (start stop : Nat) (repl : Str) : Str :=
  s.take start ++ repl ++ s.drop stop

/-- Insertion step of a stable descending sort by `start`
(`sorted(entities, key=lambda x: x['start'], reverse=True)`). -/
def insertDesc (e : Entity) : List Entity → List Entity
  | [] => [e]
  | f :: rest => if f.start ≤ e.start then e :: f :: rest else f :: insertDesc e rest

/-- Stable descending sort by `start`. -/
def sortDesc : List Entity → List Entity
  | [] => []
  | e :: rest => insertDesc e (sortDesc rest)

/-- One iteration of the rewrite loop in `Anonymizer.anonymize_text`. -/
def anonStep (acc : Str × AnonState) (e : Entity) : Str × AnonState :=
  let r := get_placeholder acc.2 e.text e.type
  (splice acc.1 e.start e.stop r.1, r.2)

/-- `Anonymizer.anonymize_text` run on state `st` (a fresh instance is
`AnonState.init`); returns the anonymized text and `self.mapping.copy()`. -/
def anonymize_text (st : AnonState) (text : Str) (entities : List Entity) :
    Str × List (Str × Str) :=
  if entities = [] then (text, [])
  else
    let r := (sortDesc entities).foldl anonStep (text, st)
    (r.1, r.2.mapping)

/-- `Anonymizer._get_placeholder` lifted to an entity, keeping only the
placeholder (used to trace which placeholder each entity received). -/
def phOf (st : AnonState) (e : Entity) : Str := (get_placeholder st e.text e.type).1

/-- State after `Anonymizer._get_placeholder` for one entity. -/
def stepSt (st : AnonState) (e : Entity) : AnonState := (get_placeholder st e.text e.type).2

/-- Trace of the rewrite loop: the placeholder each processed entity received,
in processing order. -/
def phLog (st : AnonState) : List Entity → List (Entity × Str)
  | [] => []
  | e :: rest => (e, phOf st e) :: phLog (stepSt st e) rest

/-- Final anonymizer state after the rewrite loop. -/
def runSt (st : AnonState) : List Entity → AnonState
  | [] => st
  | e :: rest => runSt (stepSt st e) rest

/-- Fuel-driven core of the left-to-right replace scan; with
`fuel ≥ s.length` and `p ≠ []` it computes Python `s.replace(p, r)`
(stability in the fuel is proved below). -/
def repFuel (p r : Str) : Nat → Str → Str
  | 0, s => s
  | fuel + 1, s =>
    match s with
    | [] => []
    | c :: s' =>
      if p.isPrefixOf (c :: s') then r ++ repFuel p r fuel ((c :: s').drop p.length)
      else c :: repFuel p r fuel s'

/-- Current counter value for an entity type (`defaultdict(int)` lookup). -/
def cnt (st : AnonState) (t : Str) : Nat := (lookupA t st.counters).getD 0

/-- Invariant of the anonymizer state: every stored placeholder was formatted
from some type and a counter value not exceeding that type's current counter,
mapping keys are distinct, and mapping values are distinct. -/
def GoodState (st : AnonState) : Prop :=
  (∀ p ∈ st.mapping, ∃ ty c, p.2 = format_placeholder ty c ∧ 1 ≤ c ∧ c ≤ cnt st ty) ∧
  (st.mapping.map Prod.fst).Nodup ∧
  (st.mapping.map Prod.snd).Nodup

/-- Left-to-right scan replacing every occurrence of `p` by `r`
(Python `str.replace(p, r)`); for `p = ""` Python inserts `r` before every
character and at the end. -/
def replaceAll (p r s : Str) : Str :=
  if p = [] then r ++ s.foldr (fun c acc => c :: (r ++ acc)) []
  else repFuel p r s.length s

/-- Python `{v: k for k, v in mapping.items()}`. -/
def reverseMap (mapping : List (Str × Str)) : List (Str × Str) :=
  mapping.foldl (fun acc kv => aset kv.2 kv.1 acc) []

/-- Insertion step of a stable descending sort by length
(`sorted(reverse_map.keys(), key=len, reverse=True)`). -/
def insertLenDesc (p : Str) : List Str → List Str
  | [] => [p]
  | q :: rest => if q.length ≤ p.length then p :: q :: rest else q :: insertLenDesc p rest

/-- Stable descending sort by length. -/
def sortLenDesc : List Str → List Str
  | [] => []
  | p :: rest => insertLenDesc p (sortLenDesc rest)

/-- The entity's half-open span is well-formed for text `T` (`start < end`
per the data model) and its `text` field equals the slice `T[start:end]`. -/
def ValidEnt (T : Str) (e : Entity) : Prop :=
  e.start < e.stop ∧ e.stop ≤ T.length ∧
    e.text = (T.drop e.start).take (e.stop - e.start)

/-- Non-overlap of two spans (the negation of `PIIDetector._has_overlap`'s
conflict condition). -/
def NonOverlap (a b : Entity) : Prop := a.stop ≤ b.start ∨ b.stop ≤ a.start

/-- Result of the descending rewrite loop reconstructed from its trace: each
processed entity's span replaced by the placeholder it received. -/
def rebuild (T : Str) : List (Entity × Str) → Str
  | [] => T
  | (e, p) :: rest => rebuild (T.take e.start) rest ++ p ++ T.drop e.stop

/-- Ascending alternation of plain text segments and placeholder slots. -/
def interleave : List (Str × Str) → Str → Str
  | [], tail => tail
  | (seg, q) :: rest, tail => seg ++ q ++ interleave rest tail

/-- A string free of the `[` code point (91). -/
def Clean (s : Str) : Prop := 91 ∉ s

/-- A bracket-well-formed placeholder: starts with `[` (91), ends with `]`
(93), and contains no other bracket code point. -/
def Bracketed (p : Str) : Prop :=
  ∃ mid, p = 91 :: (mid ++ [93]) ∧ 91 ∉ mid ∧ 93 ∉ mid

/-- `Anonymizer.deanonymize_text`. -/
def deanonymize_text (anonymized_text : Str) (mapping : List (Str × Str)) : Str :=
  let reverse_map := reverseMap mapping
  let sorted_placeholders := sortLenDesc (reverse_map.map Prod.fst)
  sorted_placeholders.foldl
    (fun result ph => replaceAll ph ((lookupA ph reverse_map).getD []) result)
    anonymized_text

/-! ### PIIDetector: merging pattern and model detections
(`services/pii_detector.py`) -/

/-- `PIIDetector._has_overlap`: does `position` overlap any seen span
(`not (end <= seen_start or start >= seen_end)` for some seen span). -/
def has_overlap (position : Nat × Nat) (seen_positions : List (Nat × Nat)) : Bool :=
  seen_positions.any (fun sp =>
    !(decide (position.2 ≤ sp.1) || decide (position.1 ≥ sp.2)))

/-- The spaCy phase of `PIIDetector.detect_pii`: admit each model entity only
if its span does not overlap a seen span, recording admitted spans. -/
def admitSpacy (seen : List (Nat × Nat)) : List Entity → List Entity
  | [] => []
  | e :: rest =>
    if has_overlap (e.start, e.stop) seen then admitSpacy seen rest
    else e :: admitSpacy ((e.start, e.stop) :: seen) rest

/-- Insertion step of a stable ascending sort by `start`
(`entities.sort(key=lambda x: x['start'])`). -/
def insertAsc (e : Entity) : List Entity → List Entity
  | [] => [e]
  | f :: rest => if e.start ≤ f.start then e :: f :: rest else f :: insertAsc e rest

/-- Stable ascending sort by `start`. -/
def sortAsc : List Entity → List Entity
  | [] => []
  | e :: rest => insertAsc e (sortAsc rest)

/-- The merge logic of `PIIDetector.detect_pii` given the two detectors'
outputs: every regex entity is admitted and its span recorded; each spaCy
entity is admitted only when non-overlapping with all seen spans; the result
is sorted ascending by start.  (The regex/spaCy scans themselves wrap the
external `re` and `spacy` libraries.) -/
def detect_pii_merge (regex_entities spacy_entities : List Entity) : List Entity :=
  sortAsc (regex_entities ++
    admitSpacy (regex_entities.map (fun e => (e.start, e.stop))) spacy_entities)

/-! ### Rate limiter and decrypt endpoints (`routers/decrypt.py`) -/

/-- The module-level `decrypt_attempts` dict. -/
abbrev AttemptMap := List (Str × List Int)

/-- The rate-limit key `f"{user_id}:{session_id}"` (58 = ':'). -/
def rateKey (user_id : Nat) (session_id : Str) : Str :=
  numeral user_id ++ 58 :: session_id

/-- `check_rate_limit`: prune timestamps outside the trailing window, reject
without recording when at the limit, otherwise record `now`; returns the
allow flag and the updated `decrypt_attempts` map.  (The missing-key branch
`decrypt_attempts[key] = []` followed by the filter assignment is folded
into `getD []` plus the final `aset`, which yields the same dict.) -/
def check_rate_limit (attempts : AttemptMap) (user_id : Nat) (session_id : Str)
    (now : Int) (max_attempts : Nat := 5) (window_hours : Int := 1) :
    Bool × AttemptMap :=
  let key := rateKey user_id session_id
  let cutoff := now - window_hours * 3600
  let recent := ((lookupA key attempts).getD []).filter (fun t => decide (cutoff < t))
  if max_attempts ≤ recent.length then (false, aset key recent attempts)
  else (true, aset key (recent ++ [now]) attempts)

/-- A row of `anonymization_sessions` (the fields the decrypt router uses). -/
structure SessionRec where
  id : Str
  user_id : Nat
  document_text_encrypted : Str
  deriving DecidableEq, Repr

/-- The authenticated caller (`models.User`: the fields the router uses). -/
structure User where
  id : Nat
  password_hash : Str
  deriving DecidableEq, Repr

/-- An `audit_logs` row as written by the decrypt router. -/
structure AuditRec where
  user_id : Nat
  session_id : Str
  action : Str
  deriving DecidableEq, Repr

/-- Modelled from the spec: `verify_password` lives in `utils/security.py`
which is not among the sources; the spec describes it as password
re-verification against the stored hash.  Modelled as comparison of an
injective hash image (35 prepended) with the stored hash. -/
def verify_password (plain password_hash : Str) : Bool :=
  decide (35 :: plain = password_hash)

/-- The session lookup both decrypt endpoints perform
(`id == session_id AND user_id == current_user.id`). -/
def findSession (db : List SessionRec) (session_id : Str) (user_id : Nat) :
    Option SessionRec :=
  db.find? (fun s => decide (s.id = session_id) && decide (s.user_id = user_id))

/-- `check_decrypt_permission` (GET can-decrypt): 404 (`none`) when the
session is missing; otherwise recompute the pruned attempt list locally and
report `(can_decrypt, remaining_attempts)` without touching
`decrypt_attempts`, returned unchanged as the post-state. -/
def check_decrypt_permission (attempts : AttemptMap) (current_user : User)
    (session_id : Str) (db : List SessionRec) (now : Int) :
    Option (Bool × Nat) × AttemptMap :=
  match findSession db session_id current_user.id with
  | none => (none, attempts)
  | some _ =>
    let key := rateKey current_user.id session_id
    let cutoff := now - 3600
    let recent := match lookupA key attempts with
      | some lst => lst.filter (fun t => decide (cutoff < t))
      | none => []
    let remaining := 5 - recent.length
    (some (0 < remaining, remaining), attempts)

/-! ### Encryption service (`services/encryption.py`)

The service wraps the external `cryptography` library (PBKDF2HMAC, Fernet)
and `base64`; those primitives are modelled below as explicit injective
codings with the authenticated-encryption interface the library provides. -/

/-- Models Python `str.encode()` (UTF-8, external): injective coding of code
points into bytes, modelled as fixed-width base-256 triples. -/
def utf8encode (s : Str) : List Nat :=
  s.foldr (fun c acc => c / 65536 :: (c / 256) % 256 :: c % 256 :: acc) []

/-- Models Python `bytes.decode()` (UTF-8, external): inverse of the
fixed-width coding; fails on malformed input. -/
def utf8decode : List Nat → Option Str
  | [] => some []
  | a :: b :: c :: rest =>
    match utf8decode rest with
    | some s => some ((a * 65536 + b * 256 + c) :: s)
    | none => none
  | _ => none

/-- Models `base64.urlsafe_b64encode(..).decode()` (external): injective
printable coding of bytes, modelled as two characters per byte. -/
def b64encode (bs : List Nat) : Str :=
  bs.foldr (fun b acc => (b / 16 + 65) :: (b % 16 + 65) :: acc) []

/-- Models `base64.urlsafe_b64decode` (external): inverse coding; fails on
malformed input. -/
def b64decode : Str → Option (List Nat)
  | [] => some []
  | x :: y :: rest =>
    if 65 ≤ x ∧ x < 81 ∧ 65 ≤ y ∧ y < 81 then
      match b64decode rest with
      | some bs => some (((x - 65) * 16 + (y - 65)) :: bs)
      | none => none
    else none
  | _ => none

/-- Models `EncryptionService._derive_key` (PBKDF2HMAC, external): a
deterministic 32-byte key derived from the secret. -/
def derive_key (secret : Str) : List Nat :=
  ((secret.map (fun c => c % 256)) ++ List.replicate 32 48).take 32

/-- Models `Fernet(key).encrypt` (external): authenticated ciphertext,
modelled as the 32-byte key tag prepended to the message bytes. -/
def fernetEncrypt (key msg : List Nat) : List Nat := key ++ msg

/-- Models `Fernet(key).decrypt` (external): verifies the authentication tag
and strips it; fails (InvalidToken) when verification fails. -/
def fernetDecrypt (key data : List Nat) : Option (List Nat) :=
  if data.take 32 = key then some (data.drop 32) else none

/-- `settings.secret_key` (config.py default). -/
def secret_key : Str := str "your-secret-key-here-change-in-production"

/-- `EncryptionService.encrypt_text`: empty input yields empty output;
otherwise base64 of the Fernet encryption of the UTF-8 bytes. -/
def encrypt_text (text : Str) : Str :=
  if text = [] then []
  else b64encode (fernetEncrypt (derive_key secret_key) (utf8encode text))

/-- `EncryptionService.decrypt_text`: empty input yields empty output;
otherwise decode, decrypt and re-encode, turning any failure into the
`ValueError("Decryption failed: ...")` branch. -/
def decrypt_text (encrypted_text : Str) : Except Str Str :=
  if encrypted_text = [] then Except.ok []
  else
    match b64decode encrypted_text with
    | none => Except.error (str "Decryption failed")
    | some data =>
      match fernetDecrypt (derive_key secret_key) data with
      | none => Except.error (str "Decryption failed")
      | some msg =>
        match utf8decode msg with
        | none => Except.error (str "Decryption failed")
        | some s => Except.ok s

/-- Outcome of `decrypt_document` (the HTTP responses / raises). -/
inductive DecryptOutcome where
  | rateLimited
  | notFound
  | invalidPassword
  | success (text : Str)
  | decryptError
  deriving DecidableEq, Repr

/-- `decrypt_document` (POST decrypt): rate limit first (recording an
attempt when allowed), then session lookup, then password verification,
then decryption; audit rows are appended on the password-failure, success
and decryption-error paths.  Returns the outcome, the updated
`decrypt_attempts` map and the audit log.  (`last_accessed` refresh touches
a field not modelled in `SessionRec`.) -/
def decrypt_document (attempts : AttemptMap) (current_user : User)
    (session_id : Str) (password : Str) (db : List SessionRec)
    (audit : List AuditRec) (now : Int) :
    DecryptOutcome × AttemptMap × List AuditRec :=
  let r := check_rate_limit attempts current_user.id session_id now 5 1
  if r.1 = false then (DecryptOutcome.rateLimited, r.2, audit)
  else
    match findSession db session_id current_user.id with
    | none => (DecryptOutcome.notFound, r.2, audit)
    | some s =>
      if verify_password password current_user.password_hash = false then
        (DecryptOutcome.invalidPassword, r.2,
         audit ++ [⟨current_user.id, session_id, str "DECRYPT_FAILED"⟩])
      else
        match decrypt_text s.document_text_encrypted with
        | Except.ok text =>
          (DecryptOutcome.success text, r.2,
           audit ++ [⟨current_user.id, session_id, str "DECRYPT_SUCCESS"⟩])
        | Except.error _ =>
          (DecryptOutcome.decryptError, r.2,
           audit ++ [⟨current_user.id, session_id, str "DECRYPT_ERROR"⟩])

/-! ### Decimal numeral lemmas -/

theorem digitsAux_eq {fuel n : Nat} (h : n ≤ fuel) : digitsAux fuel n = Nat.digits 10 n := by
  induction fuel generalizing n with
  | zero =>
    have : n = 0 := Nat.le_zero.mp h
    subst this
    simp [digitsAux]
  | succ f ih =>
    cases n with
    | zero => simp [digitsAux]
    | succ m =>
      rw [digitsAux, Nat.digits_def' (by norm_num : 1 < 10) (Nat.succ_pos m)]
      congr 1
      have hd : (m + 1) / 10 < m + 1 := Nat.div_lt_self (Nat.succ_pos m) (by norm_num)
      exact ih (by omega)

theorem numeral_eq (n : Nat) :
    numeral n = if n = 0 then [48] else (Nat.digits 10 n).reverse.map (fun d => d + 48) := by
  unfold numeral
  by_cases h : n = 0
  · simp [h]
  · simp [h, digitsAux_eq (Nat.le_refl n)]

theorem numeral_ne_nil (n : Nat) : numeral n ≠ [] := by
  rw [numeral_eq]
  by_cases h : n = 0
  · simp [h]
  · simp [h, Nat.digits_ne_nil_iff_ne_zero.mpr h]

theorem numeral_range {n x : Nat} (hx : x ∈ numeral n) : 48 ≤ x ∧ x ≤ 57 := by
  rw [numeral_eq] at hx
  by_cases h : n = 0
  · simp [h] at hx
    omega
  · simp only [h, if_neg, ite_false, List.mem_map, List.mem_reverse] at hx
    obtain ⟨d, hd, rfl⟩ := hx
    have := Nat.digits_lt_base (by norm_num : 1 < 10) hd
    omega

theorem numeral_zero_aux {n : Nat} (hn : n ≠ 0)
    (h : ([48] : List Nat) = (Nat.digits 10 n).reverse.map (fun d => d + 48)) : False := by
  have h1 : ([0] : List Nat).map (fun d => d + 48) =
      (Nat.digits 10 n).reverse.map (fun d => d + 48) := by simpa using h
  have h2 : ([0] : List Nat) = (Nat.digits 10 n).reverse :=
    List.map_injective_iff.mpr (fun a b hab => by simpa using hab) h1
  have h3 : Nat.digits 10 n = [0] := by
    have := congrArg List.reverse h2
    simpa using this.symm
  have h4 : n = Nat.ofDigits 10 (Nat.digits 10 n) := (Nat.ofDigits_digits 10 n).symm
  rw [h3] at h4
  simp [Nat.ofDigits] at h4
  exact hn h4

theorem numeral_inj {m n : Nat} (h : numeral m = numeral n) : m = n := by
  rw [numeral_eq, numeral_eq] at h
  by_cases hm : m = 0 <;> by_cases hn : n = 0
  · omega
  · exfalso
    rw [if_pos hm, if_neg hn] at h
    exact numeral_zero_aux hn h
  · exfalso
    rw [if_neg hm, if_pos hn] at h
    exact numeral_zero_aux hm h.symm
  · rw [if_neg hm, if_neg hn] at h
    have h2 : (Nat.digits 10 m).reverse = (Nat.digits 10 n).reverse :=
      List.map_injective_iff.mpr (fun a b hab => by simpa using hab) h
    have h3 : Nat.digits 10 m = Nat.digits 10 n := by
      have := congrArg List.reverse h2
      simpa using this
    calc m = Nat.ofDigits 10 (Nat.digits 10 m) := (Nat.ofDigits_digits 10 m).symm
    _ = Nat.ofDigits 10 (Nat.digits 10 n) := by rw [h3]
    _ = n := Nat.ofDigits_digits 10 n

/-! ### Placeholder format lemmas -/

theorem format_placeholder_eq (t : Str) (c : Nat) :
    format_placeholder t c =
      if t = str "ORG" then 91 :: (str "COMPANY" ++ 95 :: ([64 + c] ++ [93]))
      else 91 :: (t ++ 95 :: (numeral c ++ [93])) := by
  by_cases hP : t = str "PERSON"
  · subst hP
    rw [format_placeholder, if_pos (by left; rfl), if_pos rfl, if_neg (by decide)]
    rw [show str "[PERSON_" = [91] ++ str "PERSON" ++ [95] from by decide,
        show str "]" = [93] from by decide]
    simp
  by_cases hO : t = str "ORG"
  · subst hO
    rw [format_placeholder, if_pos (by right; left; rfl), if_neg (by decide), if_pos rfl,
        if_pos rfl]
    rw [show str "[COMPANY_" = [91] ++ str "COMPANY" ++ [95] from by decide,
        show str "]" = [93] from by decide]
    simp
  · rw [format_placeholder, if_neg hO]
    have hgen : str "[" ++ t ++ str "_" ++ numeral c ++ str "]" =
        91 :: (t ++ 95 :: (numeral c ++ [93])) := by
      rw [show str "[" = [91] from by decide, show str "_" = [95] from by decide,
          show str "]" = [93] from by decide]
      simp
    by_cases hin : t = str "PERSON" ∨ t = str "ORG" ∨ t = str "GPE" ∨ t = str "LOC" ∨
        t = str "FAC"
    · rw [if_pos hin, if_neg hP, if_neg hO]
      exact hgen
    · rw [if_neg hin, if_neg hO]
      exact hgen

theorem sep_head_inj {s : Nat} {a b a' b' : List Nat} (h : a ++ s :: b = a' ++ s :: b')
    (ha : s ∉ a) (ha' : s ∉ a') : a = a' ∧ b = b' := by
  induction a generalizing a' with
  | nil =>
    cases a' with
    | nil => simpa using h
    | cons y u =>
      exfalso
      simp only [List.nil_append, List.cons_append, List.cons.injEq] at h
      exact ha' (by simp [← h.1])
  | cons x tl ih =>
    cases a' with
    | nil =>
      exfalso
      simp only [List.nil_append, List.cons_append, List.cons.injEq] at h
      exact ha (by simp [h.1])
    | cons y u =>
      simp only [List.cons_append, List.cons.injEq] at h
      have hx : x ∉ ({s} : Set Nat) := by simp; intro he; exact ha (by simp [he])
      have := ih h.2 (fun hm => ha (List.mem_cons_of_mem _ hm))
        (fun hm => ha' (h.1 ▸ List.mem_cons_of_mem _ hm))
      exact ⟨by rw [h.1, this.1], this.2⟩

theorem sep_last_inj {s : Nat} {a b a' b' : List Nat} (h : a ++ s :: b = a' ++ s :: b')
    (hb : s ∉ b) (hb' : s ∉ b') : a = a' ∧ b = b' := by
  have hr := congrArg List.reverse h
  simp only [List.reverse_append, List.reverse_cons] at hr
  have hr' : b.reverse ++ s :: a.reverse = b'.reverse ++ s :: a'.reverse := by
    simpa [List.append_assoc] using hr
  have := sep_head_inj hr' (by simpa using hb) (by simpa using hb')
  constructor
  · have := congrArg List.reverse this.2
    simpa using this
  · have := congrArg List.reverse this.1
    simpa using this

theorem org_mismatch_aux {u : Str} {c c' : Nat} (hc : 1 ≤ c)
    (h : str "COMPANY" ++ 95 :: ([64 + c] ++ [93]) = u ++ 95 :: (numeral c' ++ [93])) :
    False := by
  have h2 : (str "COMPANY" ++ [95] ++ [64 + c]) ++ [93] =
      (u ++ [95] ++ numeral c') ++ [93] := by
    simpa [List.append_assoc] using h
  have h3 := (List.append_inj' h2 rfl).1
  rcases List.eq_nil_or_concat (numeral c') with hnil | ⟨ns, d, hnsd⟩
  · exact numeral_ne_nil c' hnil
  · have h4 : (str "COMPANY" ++ [95]) ++ [64 + c] = ((u ++ [95]) ++ ns) ++ [d] := by
      rw [hnsd] at h3
      simpa [List.append_assoc] using h3
    have h5 := (List.append_inj' h4 rfl).2
    have hd : d ∈ numeral c' := by rw [hnsd]; simp
    have := numeral_range hd
    simp only [List.cons.injEq, and_true] at h5
    omega

theorem format_placeholder_inj {t t' : Str} {c c' : Nat} (hc : 1 ≤ c) (hc' : 1 ≤ c')
    (h : format_placeholder t c = format_placeholder t' c') : t = t' ∧ c = c' := by
  rw [format_placeholder_eq, format_placeholder_eq] at h
  by_cases hO : t = str "ORG" <;> by_cases hO' : t' = str "ORG"
  · subst hO; subst hO'
    rw [if_pos rfl, if_pos rfl] at h
    simp only [List.cons.injEq, true_and] at h
    have h2 := List.append_cancel_left h
    simp only [List.cons.injEq, true_and] at h2
    have h3 := (List.append_inj' h2 rfl).1
    simp only [List.cons.injEq, and_true] at h3
    exact ⟨rfl, by omega⟩
  · exfalso
    rw [if_pos hO, if_neg hO'] at h
    subst hO
    simp only [List.cons.injEq, true_and] at h
    exact org_mismatch_aux hc h
  · exfalso
    rw [if_neg hO, if_pos hO'] at h
    subst hO'
    simp only [List.cons.injEq, true_and] at h
    exact org_mismatch_aux hc' h.symm
  · rw [if_neg hO, if_neg hO'] at h
    simp only [List.cons.injEq, true_and] at h
    have hsep := sep_last_inj h
      (by
        intro hm
        rcases List.mem_append.mp hm with hm | hm
        · have := numeral_range hm; omega
        · simp at hm)
      (by
        intro hm
        rcases List.mem_append.mp hm with hm | hm
        · have := numeral_range hm; omega
        · simp at hm)
    exact ⟨hsep.1, numeral_inj (List.append_cancel_right hsep.2)⟩

/-! ### Association-list lemmas -/

theorem lookupA_mem {α β : Type} [DecidableEq α] {k : α} {v : β} {l : List (α × β)}
    (h : lookupA k l = some v) : (k, v) ∈ l := by
  induction l with
  | nil => simp [lookupA] at h
  | cons p rest ih =>
    obtain ⟨k', v'⟩ := p
    by_cases hk : k' = k
    · subst hk
      simp [lookupA] at h
      simp [h]
    · simp only [lookupA, if_neg hk] at h
      exact List.mem_cons_of_mem _ (ih h)

theorem mem_lookupA {α β : Type} [DecidableEq α] {k : α} {v : β} {l : List (α × β)}
    (hnd : (l.map Prod.fst).Nodup) (h : (k, v) ∈ l) : lookupA k l = some v := by
  induction l with
  | nil => simp at h
  | cons p rest ih =>
    obtain ⟨k', v'⟩ := p
    simp only [List.map_cons, List.nodup_cons] at hnd
    rcases List.mem_cons.mp h with h1 | h1
    · obtain ⟨hk, hv⟩ := Prod.mk.injEq .. ▸ h1
      simp_all [lookupA]
    · have hne : k' ≠ k := by
        rintro rfl
        exact hnd.1 (List.mem_map.mpr ⟨(k', v), h1, rfl⟩)
      simp only [lookupA, if_neg hne]
      exact ih hnd.2 h1

theorem lookupA_eq_none {α β : Type} [DecidableEq α] {k : α} {l : List (α × β)} :
    lookupA k l = none ↔ k ∉ l.map Prod.fst := by
  induction l with
  | nil => simp [lookupA]
  | cons p rest ih =>
    obtain ⟨k', v'⟩ := p
    by_cases hk : k' = k
    · subst hk; simp [lookupA]
    · simp [lookupA, if_neg hk, ih, Ne.symm hk]

theorem aset_of_absent {α β : Type} [DecidableEq α] {k : α} (v : β) {l : List (α × β)}
    (h : lookupA k l = none) : aset k v l = l ++ [(k, v)] := by
  induction l with
  | nil => simp [aset]
  | cons p rest ih =>
    obtain ⟨k', v'⟩ := p
    by_cases hk : k' = k
    · simp [lookupA, hk] at h
    · simp only [lookupA, if_neg hk] at h
      simp [aset, if_neg hk, ih h]

theorem lookupA_aset_self {α β : Type} [DecidableEq α] (k : α) (v : β) (l : List (α × β)) :
    lookupA k (aset k v l) = some v := by
  induction l with
  | nil => simp [aset, lookupA]
  | cons p rest ih =>
    obtain ⟨k', v'⟩ := p
    by_cases hk : k' = k
    · simp [aset, hk, lookupA]
    · simp [aset, if_neg hk, lookupA, if_neg hk, ih]

theorem lookupA_aset_ne {α β : Type} [DecidableEq α] {k k' : α} (v : β) (l : List (α × β))
    (h : k' ≠ k) : lookupA k (aset k' v l) = lookupA k l := by
  induction l with
  | nil => simp [aset, lookupA, if_neg h]
  | cons p rest ih =>
    obtain ⟨k'', v''⟩ := p
    by_cases hk : k'' = k'
    · subst hk
      simp [aset, lookupA, if_neg h]
    · simp only [aset, if_neg hk, lookupA]
      by_cases hk2 : k'' = k
      · simp [hk2]
      · simp [if_neg hk2, ih]

/-! ### C7: the Alice/Bob descending-order scenario -/

/-- C7: on text "Alice met Bob" with PERSON entities "Alice" (start 0) and
"Bob" (start 10), a fresh Anonymizer processes "Bob" first (descending start
order) giving it `[PERSON_1]`, gives "Alice" `[PERSON_2]`, and produces the
anonymized text "[PERSON_2] met [PERSON_1]". -/
theorem C7_alice_bob_scenario :
    (sortDesc [⟨str "Alice", 0, 5, str "PERSON", str "spacy"⟩,
               ⟨str "Bob", 10, 13, str "PERSON", str "spacy"⟩] =
      [⟨str "Bob", 10, 13, str "PERSON", str "spacy"⟩,
       ⟨str "Alice", 0, 5, str "PERSON", str "spacy"⟩]) ∧
    (phLog AnonState.init
        [⟨str "Bob", 10, 13, str "PERSON", str "spacy"⟩,
         ⟨str "Alice", 0, 5, str "PERSON", str "spacy"⟩] =
      [(⟨str "Bob", 10, 13, str "PERSON", str "spacy"⟩, str "[PERSON_1]"),
       (⟨str "Alice", 0, 5, str "PERSON", str "spacy"⟩, str "[PERSON_2]")]) ∧
    (anonymize_text AnonState.init (str "Alice met Bob")
        [⟨str "Alice", 0, 5, str "PERSON", str "spacy"⟩,
         ⟨str "Bob", 10, 13, str "PERSON", str "spacy"⟩]).1 =
      str "[PERSON_2] met [PERSON_1]" := by
  refine ⟨by decide, by decide, by decide⟩

/-! ### C1 counterexample: round trip fails when the original text already
contains a placeholder-shaped substring -/

/-- C1 fails as universally stated: on T = "Bob likes [PERSON_1]" with the
single PERSON entity "Bob" at span [0,3) (whose text equals the span it
names, and spans trivially non-overlapping), anonymize then deanonymize
returns "Bob likes Bob", not T. -/
theorem C1_roundtrip_counterexample :
    (let T := str "Bob likes [PERSON_1]"
     let E : List Entity := [⟨str "Bob", 0, 3, str "PERSON", str "spacy"⟩]
     let r := anonymize_text AnonState.init T E
     deanonymize_text r.1 r.2) = str "Bob likes Bob" ∧
    str "Bob likes Bob" ≠ str "Bob likes [PERSON_1]" := by
  refine ⟨by decide, by decide⟩

/-! ### `_get_placeholder` step lemmas and the state invariant -/

theorem get_placeholder_found {st : AnonState} {v ty ph : Str}
    (h : lookupA v st.mapping = some ph) : get_placeholder st v ty = (ph, st) := by
  unfold get_placeholder
  rw [h]

theorem get_placeholder_fresh {st : AnonState} {v ty : Str}
    (h : lookupA v st.mapping = none) :
    get_placeholder st v ty =
      (format_placeholder ty (cnt st ty + 1),
       { counters := aset ty (cnt st ty + 1) st.counters,
         mapping := st.mapping ++ [(v, format_placeholder ty (cnt st ty + 1))],
         reverse_mapping :=
           aset (format_placeholder ty (cnt st ty + 1)) v st.reverse_mapping }) := by
  unfold get_placeholder
  rw [h]
  simp only [cnt]
  rw [aset_of_absent _ h]

theorem cnt_stepSt_le (st : AnonState) (e : Entity) (t : Str) :
    cnt st t ≤ cnt (stepSt st e) t := by
  unfold stepSt
  cases h : lookupA e.text st.mapping with
  | some ph => rw [get_placeholder_found h]
  | none =>
    rw [get_placeholder_fresh h]
    by_cases ht : e.type = t
    · subst ht
      simp only [cnt, lookupA_aset_self]
      simp [Option.getD]
    · simp [cnt, lookupA_aset_ne _ _ ht]

theorem mapping_sub_stepSt {st : AnonState} {e : Entity} {p : Str × Str}
    (h : p ∈ st.mapping) : p ∈ (stepSt st e).mapping := by
  unfold stepSt
  cases hl : lookupA e.text st.mapping with
  | some ph => rw [get_placeholder_found hl]; exact h
  | none =>
    rw [get_placeholder_fresh hl]
    exact List.mem_append_left _ h

theorem mapping_sub_runSt {st : AnonState} {d : List Entity} {p : Str × Str}
    (h : p ∈ st.mapping) : p ∈ (runSt st d).mapping := by
  induction d generalizing st with
  | nil => exact h
  | cons e rest ih => exact ih (mapping_sub_stepSt h)

theorem goodState_init : GoodState AnonState.init := by
  refine ⟨?_, ?_, ?_⟩ <;> simp [AnonState.init]

theorem goodState_stepSt {st : AnonState} (hg : GoodState st) (e : Entity) :
    GoodState (stepSt st e) := by
  unfold stepSt
  cases hl : lookupA e.text st.mapping with
  | some ph => rw [get_placeholder_found hl]; exact hg
  | none =>
    rw [get_placeholder_fresh hl]
    obtain ⟨hfmt, hkeys, hvals⟩ := hg
    have hcnt1 : 1 ≤ cnt st e.type + 1 := by omega
    have hnewv : ∀ p ∈ st.mapping, p.2 ≠ format_placeholder e.type (cnt st e.type + 1) := by
      intro p hp hpe
      obtain ⟨ty, c, hpc, hc1, hcle⟩ := hfmt p hp
      rw [hpc] at hpe
      obtain ⟨hty, hcc⟩ := format_placeholder_inj hc1 hcnt1 hpe
      subst hty
      omega
    refine ⟨?_, ?_, ?_⟩
    · intro p hp
      rcases List.mem_append.mp hp with hp | hp
      · obtain ⟨ty, c, hpc, hc1, hcle⟩ := hfmt p hp
        refine ⟨ty, c, hpc, hc1, le_trans hcle ?_⟩
        by_cases ht : e.type = ty
        · subst ht
          simp only [cnt, lookupA_aset_self]
          simp [Option.getD]
        · simp [cnt, lookupA_aset_ne _ _ ht]
      · simp only [List.mem_singleton] at hp
        subst hp
        refine ⟨e.type, cnt st e.type + 1, rfl, hcnt1, ?_⟩
        simp [cnt, lookupA_aset_self]
    · simp only [List.map_append, List.map_cons, List.map_nil]
      rw [List.nodup_append]
      refine ⟨hkeys, List.nodup_singleton _, ?_⟩
      intro x hx
      simp only [List.mem_singleton]
      intro hxe
      subst hxe
      exact (lookupA_eq_none.mp hl) hx
    · simp only [List.map_append, List.map_cons, List.map_nil]
      rw [List.nodup_append]
      refine ⟨hvals, List.nodup_singleton _, ?_⟩
      intro x hx
      simp only [List.mem_singleton]
      intro hxe
      subst hxe
      obtain ⟨p, hp, hp2⟩ := List.mem_map.mp hx
      exact hnewv p hp hp2

theorem goodState_runSt {st : AnonState} (hg : GoodState st) (d : List Entity) :
    GoodState (runSt st d) := by
  induction d generalizing st with
  | nil => exact hg
  | cons e rest ih => exact ih (goodState_stepSt hg e)

theorem foldl_anonStep_snd (d : List Entity) (text : Str) (st : AnonState) :
    (d.foldl anonStep (text, st)).2 = runSt st d := by
  induction d generalizing text st with
  | nil => rfl
  | cons e rest ih =>
    simp only [List.foldl_cons, runSt]
    exact ih _ _

/-! ### C5: mapping injectivity -/

/-- C5: within one `anonymize_text` call on a fresh Anonymizer, the produced
mapping is injective: no two distinct original-value keys share a
placeholder value. -/
theorem C5_mapping_injective (T : Str) (E : List Entity) :
    ∀ p ∈ (anonymize_text AnonState.init T E).2,
      ∀ q ∈ (anonymize_text AnonState.init T E).2, p.2 = q.2 → p.1 = q.1 := by
  intro p hp q hq hpq
  unfold anonymize_text at hp hq
  by_cases hE : E = []
  · simp [hE] at hp
  · simp only [if_neg hE] at hp hq
    rw [foldl_anonStep_snd] at hp hq
    have hg := goodState_runSt goodState_init (sortDesc E)
    have := List.inj_on_of_nodup_map hg.2.2 hp hq hpq
    rw [this]

/-- Witness for C5 at a concrete input. -/
theorem C5_mapping_injective_witness :
    (str "Bob", str "[PERSON_1]") ∈ (anonymize_text AnonState.init (str "Alice met Bob")
        [⟨str "Alice", 0, 5, str "PERSON", str "spacy"⟩,
         ⟨str "Bob", 10, 13, str "PERSON", str "spacy"⟩]).2 ∧
    (str "Bob", str "[PERSON_1]").1 = (str "Bob", str "[PERSON_1]").1 :=
  ⟨by decide,
   C5_mapping_injective (str "Alice met Bob")
    [⟨str "Alice", 0, 5, str "PERSON", str "spacy"⟩,
     ⟨str "Bob", 10, 13, str "PERSON", str "spacy"⟩]
    (str "Bob", str "[PERSON_1]") (by decide) (str "Bob", str "[PERSON_1]") (by decide) rfl⟩

/-! ### C4: placeholder stability for repeated values -/

theorem phLog_fst (st : AnonState) (d : List Entity) : (phLog st d).map Prod.fst = d := by
  induction d generalizing st with
  | nil => rfl
  | cons e rest ih => simp [phLog, ih]

theorem mem_phLog_mapping {st : AnonState} {d : List Entity} {pr : Entity × Str}
    (h : pr ∈ phLog st d) : (pr.1.text, pr.2) ∈ (runSt st d).mapping := by
  induction d generalizing st with
  | nil => simp [phLog] at h
  | cons e rest ih =>
    simp only [phLog, List.mem_cons] at h
    rcases h with h | h
    · subst h
      show ((e, phOf st e).1.text, (e, phOf st e).2) ∈ (runSt (stepSt st e) rest).mapping
      apply mapping_sub_runSt
      unfold phOf stepSt
      cases hl : lookupA e.text st.mapping with
      | some ph =>
        rw [get_placeholder_found hl]
        exact lookupA_mem hl
      | none =>
        rw [get_placeholder_fresh hl]
        simp
    · exact ih h

theorem runSt_append (st : AnonState) (d1 d2 : List Entity) :
    runSt st (d1 ++ d2) = runSt (runSt st d1) d2 := by
  induction d1 generalizing st with
  | nil => rfl
  | cons e rest ih =>
    simp only [List.cons_append, runSt]
    exact ih _

/-- C4: within one `anonymize_text` call on a fresh Anonymizer, two entities
carrying the same literal value receive the identical placeholder in the
rewrite loop, and the later of the two leaves the per-type counters
unchanged (no new counter is consumed). -/
theorem C4_placeholder_stability (E : List Entity) :
    (∀ pr ∈ phLog AnonState.init (sortDesc E), ∀ qr ∈ phLog AnonState.init (sortDesc E),
        pr.1.text = qr.1.text → pr.2 = qr.2) ∧
    (∀ pre e post, sortDesc E = pre ++ e :: post → (∃ a ∈ pre, a.text = e.text) →
        (runSt AnonState.init (pre ++ [e])).counters = (runSt AnonState.init pre).counters) := by
  constructor
  · intro pr hpr qr hqr htext
    have h1 := mem_phLog_mapping hpr
    have h2 := mem_phLog_mapping hqr
    have hg := goodState_runSt goodState_init (sortDesc E)
    rw [htext] at h1
    have l1 := mem_lookupA hg.2.1 h1
    have l2 := mem_lookupA hg.2.1 h2
    rw [l1] at l2
    exact (Option.some.injEq _ _ ▸ l2).symm ▸ rfl
  · intro pre e post hsplit ⟨a, ha, hae⟩
    rw [runSt_append]
    have hmem : ∃ ph, (a.text, ph) ∈ (runSt AnonState.init pre).mapping := by
      have : a ∈ (phLog AnonState.init pre).map Prod.fst := by
        rw [phLog_fst]; exact ha
      obtain ⟨pr, hpr, hpra⟩ := List.mem_map.mp this
      exact ⟨pr.2, hpra ▸ mem_phLog_mapping hpr⟩
    obtain ⟨ph, hph⟩ := hmem
    have hlk : lookupA e.text (runSt AnonState.init pre).mapping ≠ none := by
      intro hk
      exact (lookupA_eq_none.mp hk) (List.mem_map.mpr ⟨(a.text, ph), hph, hae⟩)
    cases hl : lookupA e.text (runSt AnonState.init pre).mapping with
    | none => exact absurd hl hlk
    | some w =>
      show (stepSt (runSt AnonState.init pre) e).counters = _
      unfold stepSt
      rw [get_placeholder_found hl]

/-- Witness for C4: two PERSON entities both reading "Alice"; both receive
`[PERSON_1]` and the second consumes no counter. -/
theorem C4_placeholder_stability_witness :
    ((⟨str "Alice", 10, 15, str "PERSON", str "spacy"⟩, str "[PERSON_1]") ∈
        phLog AnonState.init (sortDesc
          [⟨str "Alice", 0, 5, str "PERSON", str "spacy"⟩,
           ⟨str "Alice", 10, 15, str "PERSON", str "spacy"⟩]) ∧
      str "[PERSON_1]" = str "[PERSON_1]") ∧
    (runSt AnonState.init
        ([⟨str "Alice", 10, 15, str "PERSON", str "spacy"⟩] ++
          [⟨str "Alice", 0, 5, str "PERSON", str "spacy"⟩])).counters =
      (runSt AnonState.init [⟨str "Alice", 10, 15, str "PERSON", str "spacy"⟩]).counters := by
  refine ⟨⟨by decide, ?_⟩, ?_⟩
  · exact (C4_placeholder_stability
      [⟨str "Alice", 0, 5, str "PERSON", str "spacy"⟩,
       ⟨str "Alice", 10, 15, str "PERSON", str "spacy"⟩]).1
      (⟨str "Alice", 10, 15, str "PERSON", str "spacy"⟩, str "[PERSON_1]") (by decide)
      (⟨str "Alice", 0, 5, str "PERSON", str "spacy"⟩, str "[PERSON_1]") (by decide) rfl
  · exact (C4_placeholder_stability
      [⟨str "Alice", 0, 5, str "PERSON", str "spacy"⟩,
       ⟨str "Alice", 10, 15, str "PERSON", str "spacy"⟩]).2
      [⟨str "Alice", 10, 15, str "PERSON", str "spacy"⟩]
      ⟨str "Alice", 0, 5, str "PERSON", str "spacy"⟩ [] (by decide)
      ⟨⟨str "Alice", 10, 15, str "PERSON", str "spacy"⟩, by decide, rfl⟩

/-! ### Sorting lemmas -/

theorem insertDesc_perm (e : Entity) (l : List Entity) :
    List.Perm (insertDesc e l) (e :: l) := by
  induction l with
  | nil => rfl
  | cons f rest ih =>
    rw [insertDesc]
    by_cases h : f.start ≤ e.start
    · rw [if_pos h]
    · rw [if_neg h]
      exact (List.Perm.cons f ih).trans (List.Perm.swap e f rest)

theorem sortDesc_perm (l : List Entity) : List.Perm (sortDesc l) l := by
  induction l with
  | nil => rfl
  | cons e rest ih =>
    rw [sortDesc]
    exact (insertDesc_perm e (sortDesc rest)).trans (List.Perm.cons e ih)

theorem mem_insertDesc {x e : Entity} {l : List Entity} (h : x ∈ insertDesc e l) :
    x = e ∨ x ∈ l := by
  have := (insertDesc_perm e l).mem_iff.mp h
  simpa using this

theorem insertDesc_sorted {e : Entity} {l : List Entity}
    (h : l.Pairwise (fun a b => b.start ≤ a.start)) :
    (insertDesc e l).Pairwise (fun a b => b.start ≤ a.start) := by
  induction l with
  | nil => simp [insertDesc]
  | cons f rest ih =>
    rw [insertDesc]
    rcases List.pairwise_cons.mp h with ⟨hf, hrest⟩
    by_cases hle : f.start ≤ e.start
    · rw [if_pos hle]
      refine List.pairwise_cons.mpr ⟨?_, h⟩
      intro b hb
      rcases List.mem_cons.mp hb with hb | hb
      · subst hb; exact hle
      · exact le_trans (hf b hb) hle
    · rw [if_neg hle]
      refine List.pairwise_cons.mpr ⟨?_, ih hrest⟩
      intro b hb
      rcases mem_insertDesc hb with hb | hb
      · subst hb; omega
      · exact hf b hb

theorem sortDesc_sorted (l : List Entity) :
    (sortDesc l).Pairwise (fun a b => b.start ≤ a.start) := by
  induction l with
  | nil => simp [sortDesc]
  | cons e rest ih => exact insertDesc_sorted ih

theorem insertLenDesc_perm (p : Str) (l : List Str) :
    List.Perm (insertLenDesc p l) (p :: l) := by
  induction l with
  | nil => rfl
  | cons q rest ih =>
    rw [insertLenDesc]
    by_cases h : q.length ≤ p.length
    · rw [if_pos h]
    · rw [if_neg h]
      exact (List.Perm.cons q ih).trans (List.Perm.swap p q rest)

theorem sortLenDesc_perm (l : List Str) : List.Perm (sortLenDesc l) l := by
  induction l with
  | nil => rfl
  | cons p rest ih =>
    rw [sortLenDesc]
    exact (insertLenDesc_perm p (sortLenDesc rest)).trans (List.Perm.cons p ih)

/-! ### `replaceAll` rewrite lemmas -/

theorem repFuel_stable {p r : Str} (hp : p ≠ []) :
    ∀ fuel s, s.length ≤ fuel → repFuel p r fuel s = repFuel p r s.length s := by
  intro fuel
  induction fuel using Nat.strong_induction_on with
  | _ fuel ih =>
    intro s hs
    cases fuel with
    | zero =>
      have : s = [] := List.eq_nil_of_length_eq_zero (Nat.le_zero.mp hs)
      subst this
      rfl
    | succ f =>
      cases s with
      | nil => rfl
      | cons c s' =>
        have hplen : 1 ≤ p.length := List.length_pos.mpr hp
        have hs' : s'.length ≤ f := by
          simp only [List.length_cons] at hs
          omega
        simp only [List.length_cons]
        rw [repFuel, repFuel]
        by_cases hpre : p.isPrefixOf (c :: s') = true
        · rw [if_pos hpre, if_pos hpre]
          have hdlen : ((c :: s').drop p.length).length ≤ s'.length := by
            simp only [List.length_drop, List.length_cons]
            omega
          rw [ih f (by omega) _ (le_trans hdlen hs'),
            ih s'.length (by omega) _ hdlen]
        · rw [if_neg hpre, if_neg hpre]
          rw [ih f (by omega) s' hs']

theorem replaceAll_nil {p r : Str} (hp : p ≠ []) : replaceAll p r [] = [] := by
  rw [replaceAll, if_neg hp]
  rfl

theorem replaceAll_cons {p r : Str} (hp : p ≠ []) (c : Nat) (s' : Str) :
    replaceAll p r (c :: s') =
      if p.isPrefixOf (c :: s') then r ++ replaceAll p r ((c :: s').drop p.length)
      else c :: replaceAll p r s' := by
  rw [replaceAll, if_neg hp]
  simp only [List.length_cons]
  rw [repFuel]
  by_cases hpre : p.isPrefixOf (c :: s') = true
  · rw [if_pos hpre, if_pos hpre]
    have hplen : 1 ≤ p.length := List.length_pos.mpr hp
    rw [repFuel_stable hp s'.length ((c :: s').drop p.length) (by
      simp only [List.length_drop, List.length_cons]
      omega)]
    rw [replaceAll, if_neg hp]
  · rw [if_neg hpre, if_neg hpre]
    rw [replaceAll, if_neg hp]

theorem bracketed_ne_nil {p : Str} (h : Bracketed p) : p ≠ [] := by
  obtain ⟨mid, hpe, _, _⟩ := h
  simp [hpe]

theorem bracketed_head_mem {p : Str} (h : Bracketed p) : 91 ∈ p := by
  obtain ⟨mid, hpe, _, _⟩ := h
  simp [hpe]

theorem isPrefixOf_false_of_head_ne {p : Str} {c : Nat} (s' : Str) (hb : Bracketed p)
    (hc : c ≠ 91) : ¬(p.isPrefixOf (c :: s') = true) := by
  intro h
  rw [List.isPrefixOf_iff_prefix] at h
  obtain ⟨t, ht⟩ := h
  obtain ⟨mid, hpe, _, _⟩ := hb
  rw [hpe] at ht
  simp only [List.cons_append, List.cons.injEq] at ht
  exact hc ht.1.symm

theorem replaceAll_clean_append {p r : Str} (hb : Bracketed p) {x : Str} (hx : Clean x)
    (y : Str) : replaceAll p r (x ++ y) = x ++ replaceAll p r y := by
  induction x with
  | nil => simp
  | cons c x' ih =>
    have hc : c ≠ 91 := fun h => hx (h ▸ List.mem_cons_self c x')
    have hx' : Clean x' := fun hm => hx (List.mem_cons_of_mem _ hm)
    rw [List.cons_append, replaceAll_cons (bracketed_ne_nil hb),
      if_neg (isPrefixOf_false_of_head_ne _ hb hc), ih hx']
    rfl

theorem replaceAll_clean {p r : Str} (hb : Bracketed p) {x : Str} (hx : Clean x) :
    replaceAll p r x = x := by
  have := @replaceAll_clean_append p r hb x hx []
  rw [List.append_nil] at this
  rw [this, replaceAll_nil (bracketed_ne_nil hb), List.append_nil]

theorem replaceAll_self_append {p r : Str} (hp : p ≠ []) (y : Str) :
    replaceAll p r (p ++ y) = r ++ replaceAll p r y := by
  match p with
  | a :: p' =>
    rw [List.cons_append, replaceAll_cons hp]
    have hpre : (a :: p').isPrefixOf (a :: (p' ++ y)) = true := by
      rw [List.isPrefixOf_iff_prefix]
      exact ⟨y, by simp⟩
    rw [if_pos hpre]
    congr 1
    have : a :: (p' ++ y) = (a :: p') ++ y := rfl
    rw [this, List.drop_left]

theorem bracketed_not_lead {p q : Str} (hbp : Bracketed p) (hbq : Bracketed q)
    (hne : p ≠ q) (y : Str) : ¬ p <+: q ++ y := by
  intro h
  obtain ⟨t, ht⟩ := h
  obtain ⟨mp, hpe, hp1, hp3⟩ := hbp
  obtain ⟨mq, hqe, hq1, hq3⟩ := hbq
  rw [hpe, hqe] at ht
  simp only [List.cons_append, List.cons.injEq, List.append_assoc] at ht
  have hsep : mp ++ 93 :: t = mq ++ 93 :: y := by
    simpa using ht
  have := sep_head_inj hsep hp3 hq3
  exact hne (by rw [hpe, hqe, this.1])

theorem replaceAll_bracketed_append {p q r : Str} (hbp : Bracketed p) (hbq : Bracketed q)
    (hne : q ≠ p) (y : Str) : replaceAll p r (q ++ y) = q ++ replaceAll p r y := by
  obtain ⟨mq, hqe, hq1, hq3⟩ := hbq
  subst hqe
  rw [List.cons_append, replaceAll_cons (bracketed_ne_nil hbp)]
  rw [if_neg (by
    intro hpre
    rw [List.isPrefixOf_iff_prefix] at hpre
    have : (91 :: (mq ++ [93])) ++ y = 91 :: ((mq ++ [93]) ++ y) := rfl
    rw [← this] at hpre
    exact bracketed_not_lead hbp ⟨mq, rfl, hq1, hq3⟩ (Ne.symm hne) y hpre)]
  have hclean : Clean (mq ++ [93]) := by
    intro hm
    rcases List.mem_append.mp hm with hm | hm
    · exact hq1 hm
    · simp at hm
  rw [replaceAll_clean_append hbp hclean y]
  rfl

/-! ### Interleave substitution lemmas -/

theorem bracketed_not_clean {p : Str} (hb : Bracketed p) : ¬ Clean p :=
  fun hc => hc (bracketed_head_mem hb)

theorem interleave_cons (seg q : Str) (rest : List (Str × Str)) (tail : Str) :
    interleave ((seg, q) :: rest) tail = seg ++ (q ++ interleave rest tail) := by
  show seg ++ q ++ interleave rest tail = _
  rw [List.append_assoc]

theorem replaceAll_interleave {p r : Str} (hbp : Bracketed p) {L : List (Str × Str)}
    {tail : Str} (hL : ∀ pr ∈ L, Clean pr.1 ∧ (Bracketed pr.2 ∨ Clean pr.2))
    (htail : Clean tail) :
    replaceAll p r (interleave L tail) =
      interleave (L.map (fun pr => (pr.1, if pr.2 = p then r else pr.2))) tail := by
  induction L with
  | nil => exact replaceAll_clean hbp htail
  | cons sq rest ih =>
    obtain ⟨seg, q⟩ := sq
    have hseg : Clean seg := (hL _ (List.mem_cons_self _ _)).1
    have hq := (hL _ (List.mem_cons_self _ _)).2
    have hLrest : ∀ pr ∈ rest, Clean pr.1 ∧ (Bracketed pr.2 ∨ Clean pr.2) :=
      fun pr hpr => hL pr (List.mem_cons_of_mem _ hpr)
    rw [interleave_cons, replaceAll_clean_append hbp hseg]
    simp only [List.map_cons]
    rw [interleave_cons]
    by_cases hqp : q = p
    · subst hqp
      rw [replaceAll_self_append (bracketed_ne_nil hbp)]
      rw [ih hLrest, if_pos rfl]
    · have hstep : replaceAll p r (q ++ interleave rest tail) =
          q ++ replaceAll p r (interleave rest tail) := by
        rcases hq with hbq | hcq
        · exact replaceAll_bracketed_append hbp hbq hqp _
        · exact replaceAll_clean_append hbp hcq _
      rw [hstep, ih hLrest, if_neg hqp]

theorem lookupA_clean_none {v : Str} {ps : List (Str × Str)}
    (hks : ∀ pv ∈ ps, Bracketed pv.1) (hv : Clean v) : lookupA v ps = none := by
  induction ps with
  | nil => rfl
  | cons pv rest ih =>
    obtain ⟨k, w⟩ := pv
    have hbk : Bracketed k := hks _ (List.mem_cons_self _ _)
    have hne : k ≠ v := by
      intro hkv
      exact bracketed_not_clean hbk (hkv ▸ hv)
    simp only [lookupA, if_neg hne]
    exact ih (fun q hq => hks q (List.mem_cons_of_mem _ hq))

theorem foldl_replace_interleave {ps : List (Str × Str)}
    (hps : ∀ pv ∈ ps, Bracketed pv.1 ∧ Clean pv.2) :
    ∀ {L : List (Str × Str)} {tail : Str},
      (∀ pr ∈ L, Clean pr.1 ∧ (Bracketed pr.2 ∨ Clean pr.2)) → Clean tail →
      ps.foldl (fun s pv => replaceAll pv.1 pv.2 s) (interleave L tail) =
        interleave (L.map (fun pr => (pr.1, (lookupA pr.2 ps).getD pr.2))) tail := by
  induction ps with
  | nil =>
    intro L tail hL htail
    simp [lookupA]
  | cons pv ps' ih =>
    intro L tail hL htail
    obtain ⟨p, v⟩ := pv
    have hbp : Bracketed p := (hps _ (List.mem_cons_self _ _)).1
    have hcv : Clean v := (hps _ (List.mem_cons_self _ _)).2
    have hps' : ∀ q ∈ ps', Bracketed q.1 ∧ Clean q.2 :=
      fun q hq => hps q (List.mem_cons_of_mem _ hq)
    simp only [List.foldl_cons]
    rw [replaceAll_interleave hbp hL htail]
    have hL' : ∀ pr ∈ L.map (fun pr => (pr.1, if pr.2 = p then v else pr.2)),
        Clean pr.1 ∧ (Bracketed pr.2 ∨ Clean pr.2) := by
      intro pr hpr
      obtain ⟨pr0, hpr0, rfl⟩ := List.mem_map.mp hpr
      refine ⟨(hL pr0 hpr0).1, ?_⟩
      by_cases hqp : pr0.2 = p
      · rw [if_pos hqp]
        exact Or.inr hcv
      · rw [if_neg hqp]
        exact (hL pr0 hpr0).2
    rw [ih hps' hL' htail]
    rw [List.map_map]
    apply congrArg (fun z => interleave z tail)
    apply List.map_congr_left
    intro pr hpr
    simp only [Function.comp_apply]
    by_cases hqp : pr.2 = p
    · rw [if_pos hqp, hqp]
      rw [lookupA_clean_none (fun q hq => (hps' q hq).1) hcv]
      simp only [Option.getD_none]
      simp [lookupA]
    · rw [if_neg hqp]
      simp only [lookupA, if_neg (Ne.symm hqp)]

theorem interleave_append_tail (L : List (Str × Str)) (t z : Str) :
    interleave L t ++ z = interleave L (t ++ z) := by
  induction L with
  | nil => rfl
  | cons sq rest ih =>
    obtain ⟨seg, q⟩ := sq
    rw [interleave_cons, interleave_cons, List.append_assoc, List.append_assoc, ih]

theorem interleave_concat (L : List (Str × Str)) (a b : Str) (tail : Str) :
    interleave (L ++ [(a, b)]) tail = interleave L (a ++ b ++ tail) := by
  induction L with
  | nil => rfl
  | cons sq rest ih =>
    obtain ⟨seg, q⟩ := sq
    rw [List.cons_append, interleave_cons, ih, interleave_cons]

/-! ### Shape of the anonymized text: rebuild from the trace -/

theorem anonStep_eq (acc : Str × AnonState) (e : Entity) :
    anonStep acc e = (splice acc.1 e.start e.stop (phOf acc.2 e), stepSt acc.2 e) := rfl

theorem splice_append {x : Str} (y : Str) {s e : Nat} (p : Str) (hs : s ≤ e)
    (he : e ≤ x.length) : splice (x ++ y) s e p = splice x s e p ++ y := by
  unfold splice
  rw [List.take_append_of_le_length (le_trans hs he),
    List.drop_append_of_le_length he]
  simp [List.append_assoc]

theorem splice_length_ge {x : Str} {s e : Nat} {p : Str} (hs : s ≤ e) (he : e ≤ x.length) :
    s ≤ (splice x s e p).length := by
  unfold splice
  simp only [List.length_append, List.length_take]
  omega

theorem foldl_anonStep_frame {d : List Entity} :
    ∀ {x : Str} (y : Str) (st : AnonState),
      d.Pairwise (fun a b => b.stop ≤ a.start) →
      (∀ f ∈ d, f.start ≤ f.stop ∧ f.stop ≤ x.length) →
      (d.foldl anonStep (x ++ y, st)).1 = (d.foldl anonStep (x, st)).1 ++ y := by
  induction d with
  | nil =>
    intro x y st _ _
    rfl
  | cons f rest ih =>
    intro x y st hpair hd
    obtain ⟨hf1, hf2⟩ := hd f (List.mem_cons_self _ _)
    simp only [List.foldl_cons, anonStep_eq]
    rw [splice_append y _ hf1 hf2]
    rcases List.pairwise_cons.mp hpair with ⟨hfr, hrest⟩
    apply ih y _ hrest
    intro g hg
    refine ⟨(hd g (List.mem_cons_of_mem _ hg)).1, ?_⟩
    exact le_trans (hfr g hg) (splice_length_ge hf1 hf2)

theorem foldl_anonStep_rebuild {d : List Entity} :
    ∀ {T : Str} (st : AnonState),
      d.Pairwise (fun a b => b.stop ≤ a.start) →
      (∀ e ∈ d, e.start ≤ e.stop ∧ e.stop ≤ T.length) →
      (d.foldl anonStep (T, st)).1 = rebuild T (phLog st d) := by
  induction d with
  | nil =>
    intro T st _ _
    rfl
  | cons e rest ih =>
    intro T st hpair hval
    obtain ⟨he1, he2⟩ := hval e (List.mem_cons_self _ _)
    rcases List.pairwise_cons.mp hpair with ⟨her, hrest⟩
    have htlen : (T.take e.start).length = e.start := by
      simp only [List.length_take]
      omega
    have hrestb : ∀ f ∈ rest, f.start ≤ f.stop ∧ f.stop ≤ (T.take e.start).length := by
      intro f hf
      rw [htlen]
      exact ⟨(hval f (List.mem_cons_of_mem _ hf)).1, her f hf⟩
    simp only [List.foldl_cons, anonStep_eq]
    have hsplice : splice T e.start e.stop (phOf st e) =
        T.take e.start ++ (phOf st e ++ T.drop e.stop) := by
      unfold splice
      rw [List.append_assoc]
    rw [hsplice, foldl_anonStep_frame _ _ hrest hrestb, ih _ hrest hrestb]
    show _ = rebuild T ((e, phOf st e) :: phLog (stepSt st e) rest)
    rw [rebuild]
    rw [← List.append_assoc]

/-! ### Decomposition of the rebuilt text into segments and slots -/

theorem rebuild_decomp :
    ∀ (log : List (Entity × Str)) (T : Str),
      (∀ ep ∈ log, ep.1.start ≤ ep.1.stop ∧ ep.1.stop ≤ T.length ∧
        ep.1.text = (T.drop ep.1.start).take (ep.1.stop - ep.1.start)) →
      (log.map Prod.fst).Pairwise (fun a b => b.stop ≤ a.start) →
      ∃ L tail, rebuild T log = interleave L tail ∧
        (∀ pr ∈ L, (∀ c ∈ pr.1, c ∈ T) ∧ ∃ ep ∈ log, ep.2 = pr.2) ∧
        (∀ c ∈ tail, c ∈ T) ∧
        (∀ f : Str → Str, (∀ ep ∈ log, f ep.2 = ep.1.text) →
          interleave (L.map (fun pr => (pr.1, f pr.2))) tail = T) := by
  intro log
  induction log with
  | nil =>
    intro T _ _
    exact ⟨[], T, rfl, by simp, fun c h => h, fun f _ => rfl⟩
  | cons ep rest ih =>
    intro T hval hpair
    obtain ⟨e, p⟩ := ep
    obtain ⟨he1, he2, he3⟩ : e.start ≤ e.stop ∧ e.stop ≤ T.length ∧
        e.text = (T.drop e.start).take (e.stop - e.start) :=
      hval _ (List.mem_cons_self _ _)
    simp only [List.map_cons] at hpair
    rcases List.pairwise_cons.mp hpair with ⟨her, hrest⟩
    have htlen : (T.take e.start).length = e.start := by
      simp only [List.length_take]
      omega
    have hval' : ∀ fp ∈ rest, fp.1.start ≤ fp.1.stop ∧ fp.1.stop ≤ (T.take e.start).length ∧
        fp.1.text = ((T.take e.start).drop fp.1.start).take (fp.1.stop - fp.1.start) := by
      intro fp hfp
      obtain ⟨hf1, hf2, hf3⟩ := hval _ (List.mem_cons_of_mem _ hfp)
      have hstop : fp.1.stop ≤ e.start := her fp.1 (List.mem_map_of_mem Prod.fst hfp)
      refine ⟨hf1, by omega, ?_⟩
      rw [hf3, List.drop_take, List.take_take]
      congr 1
      omega
    obtain ⟨L', tail', heq, hLp, htailp, hrec⟩ := ih (T.take e.start) hval' hrest
    refine ⟨L' ++ [(tail', p)], T.drop e.stop, ?_, ?_, ?_, ?_⟩
    · show rebuild (T.take e.start) rest ++ p ++ T.drop e.stop = _
      rw [heq, interleave_append_tail, interleave_append_tail, interleave_concat]
    · intro pr hpr
      rcases List.mem_append.mp hpr with hpr | hpr
      · obtain ⟨hc, ep', hep', hp'⟩ := hLp pr hpr
        exact ⟨fun c hcm => List.take_subset _ _ (hc c hcm),
          ep', List.mem_cons_of_mem _ hep', hp'⟩
      · simp only [List.mem_singleton] at hpr
        subst hpr
        exact ⟨fun c hcm => List.take_subset _ _ (htailp c hcm),
          (e, p), List.mem_cons_self _ _, rfl⟩
    · intro c hc
      exact List.drop_subset _ _ hc
    · intro f hf
      have hfp : f p = e.text := hf (e, p) (List.mem_cons_self _ _)
      have htk : T.take e.start ++ (T.drop e.start).take (e.stop - e.start) =
          T.take e.stop := by
        rw [← List.take_add]
        congr 1
        omega
      rw [List.map_append]
      simp only [List.map_cons, List.map_nil]
      rw [interleave_concat, ← interleave_append_tail, ← interleave_append_tail]
      rw [hrec f (fun ep' hep' => hf ep' (List.mem_cons_of_mem _ hep'))]
      rw [hfp, he3, List.append_assoc, ← List.append_assoc, htk, List.take_append_drop]

/-! ### Mapping provenance and reverse-map lemmas -/

theorem mapping_keys_origin {d : List Entity} :
    ∀ {st : AnonState} (pr : Str × Str), pr ∈ (runSt st d).mapping →
      pr ∈ st.mapping ∨ ∃ e ∈ d, pr.1 = e.text := by
  induction d with
  | nil =>
    intro st pr hpr
    exact Or.inl hpr
  | cons e rest ih =>
    intro st pr hpr
    rcases ih pr hpr with hpr' | ⟨e', he', hpe'⟩
    · unfold stepSt at hpr'
      cases hl : lookupA e.text st.mapping with
      | some ph =>
        rw [get_placeholder_found hl] at hpr'
        exact Or.inl hpr'
      | none =>
        rw [get_placeholder_fresh hl] at hpr'
        rcases List.mem_append.mp hpr' with hpr'' | hpr''
        · exact Or.inl hpr''
        · simp only [List.mem_singleton] at hpr''
          subst hpr''
          exact Or.inr ⟨e, List.mem_cons_self _ _, rfl⟩
    · exact Or.inr ⟨e', List.mem_cons_of_mem _ he', hpe'⟩

theorem reverseMap_swap_aux :
    ∀ (m acc : List (Str × Str)), (m.map Prod.snd).Nodup →
      (∀ v ∈ m.map Prod.snd, v ∉ acc.map Prod.fst) →
      m.foldl (fun acc kv => aset kv.2 kv.1 acc) acc =
        acc ++ m.map (fun kv => (kv.2, kv.1)) := by
  intro m
  induction m with
  | nil =>
    intro acc _ _
    simp
  | cons kv m' ih =>
    intro acc hnd hacc
    simp only [List.map_cons, List.nodup_cons] at hnd
    simp only [List.foldl_cons]
    have habs : lookupA kv.2 acc = none :=
      lookupA_eq_none.mpr (hacc kv.2 (by simp))
    rw [aset_of_absent _ habs]
    rw [ih (acc ++ [(kv.2, kv.1)]) hnd.2 ?side]
    · simp [List.append_assoc]
    case side =>
      intro v hv
      simp only [List.map_append, List.mem_append, List.map_cons, List.map_nil]
      rintro (hv1 | hv1)
      · exact hacc v (List.mem_cons_of_mem _ hv) hv1
      · simp only [List.mem_singleton] at hv1
        subst hv1
        exact hnd.1 hv

theorem reverseMap_eq_swap {m : List (Str × Str)} (h : (m.map Prod.snd).Nodup) :
    reverseMap m = m.map (fun kv => (kv.2, kv.1)) := by
  have := reverseMap_swap_aux m [] h (by simp)
  simpa [reverseMap] using this

theorem lookupA_map_graph {l : List Str} {h : Str → Str} {q : Str} (hnd : l.Nodup)
    (hq : q ∈ l) : lookupA q (l.map (fun x => (x, h x))) = some (h q) := by
  induction l with
  | nil => simp at hq
  | cons x rest ih =>
    simp only [List.nodup_cons] at hnd
    simp only [List.map_cons, lookupA]
    by_cases hxq : x = q
    · subst hxq
      simp
    · rw [if_neg hxq]
      rcases List.mem_cons.mp hq with hq' | hq'
      · exact absurd hq'.symm hxq
      · exact ih hnd.2 hq'

/-! ### C1 (amended): the anonymize/deanonymize round trip -/

/-- C1 as amended: the round trip recovers T for every text T that contains
no `[` character and every entity list with non-overlapping, well-formed
spans naming their own slices, provided every placeholder in the produced
mapping is bracket-well-formed (automatic for the enum types except ORG
beyond the 26-letter range). -/
theorem C1_roundtrip_amended (T : Str) (E : List Entity)
    (hov : E.Pairwise NonOverlap)
    (hval : ∀ e ∈ E, ValidEnt T e)
    (hT : Clean T)
    (hwf : ∀ pr ∈ (anonymize_text AnonState.init T E).2, Bracketed pr.2) :
    deanonymize_text (anonymize_text AnonState.init T E).1
      (anonymize_text AnonState.init T E).2 = T := by
  by_cases hE : E = []
  · subst hE
    rfl
  -- the sorted processing order and its span properties
  have hperm := sortDesc_perm E
  have hvald : ∀ e ∈ sortDesc E, ValidEnt T e := fun e he => hval e (hperm.subset he)
  have hovd : (sortDesc E).Pairwise NonOverlap :=
    (List.Perm.pairwise_iff (fun h => Or.symm h) hperm).mpr hov
  have hstop : (sortDesc E).Pairwise (fun a b => b.stop ≤ a.start) := by
    have hand := (sortDesc_sorted E).and hovd
    refine List.Pairwise.imp_of_mem ?_ hand
    intro a b ha hb hr
    have := (hvald a ha).1
    rcases hr.2 with h2 | h2
    · omega
    · exact h2
  -- the two components of the anonymize result
  have hm : (anonymize_text AnonState.init T E).2 =
      (runSt AnonState.init (sortDesc E)).mapping := by
    unfold anonymize_text
    simp only [if_neg hE]
    exact congrArg AnonState.mapping (foldl_anonStep_snd (sortDesc E) T AnonState.init)
  have hA : (anonymize_text AnonState.init T E).1 =
      rebuild T (phLog AnonState.init (sortDesc E)) := by
    unfold anonymize_text
    simp only [if_neg hE]
    exact foldl_anonStep_rebuild AnonState.init hstop
      (fun e he => ⟨(hvald e he).1.le, (hvald e he).2.1⟩)
  -- mapping facts
  have hg := goodState_runSt goodState_init (sortDesc E)
  have hvalsN : (((runSt AnonState.init (sortDesc E)).mapping).map Prod.snd).Nodup := hg.2.2
  have hwfm : ∀ pr ∈ (runSt AnonState.init (sortDesc E)).mapping, Bracketed pr.2 :=
    fun pr hpr => hwf pr (by rw [hm]; exact hpr)
  have hkeysClean : ∀ pr ∈ (runSt AnonState.init (sortDesc E)).mapping, Clean pr.1 := by
    intro pr hpr
    rcases mapping_keys_origin pr hpr with hpr' | ⟨e, hed, hpe⟩
    · simp [AnonState.init] at hpr'
    · intro hc91
      apply hT
      have : pr.1 ⊆ T := by
        rw [hpe, (hvald e hed).2.2]
        intro c hc
        exact List.drop_subset _ _ (List.take_subset _ _ hc)
      exact this hc91
  have hrev : reverseMap ((runSt AnonState.init (sortDesc E)).mapping) =
      ((runSt AnonState.init (sortDesc E)).mapping).map (fun kv => (kv.2, kv.1)) :=
    reverseMap_eq_swap hvalsN
  have hrevfst : (reverseMap ((runSt AnonState.init (sortDesc E)).mapping)).map Prod.fst =
      ((runSt AnonState.init (sortDesc E)).mapping).map Prod.snd := by
    rw [hrev, List.map_map]
    rfl
  have hrevkeysN :
      ((reverseMap ((runSt AnonState.init (sortDesc E)).mapping)).map Prod.fst).Nodup := by
    rw [hrevfst]
    exact hvalsN
  have hsortedperm := sortLenDesc_perm
    (((runSt AnonState.init (sortDesc E)).mapping).map Prod.snd)
  have hsortedN :
      (sortLenDesc (((runSt AnonState.init (sortDesc E)).mapping).map Prod.snd)).Nodup :=
    hsortedperm.nodup_iff.mpr hvalsN
  -- lookup of a mapping value through the reverse map yields its key
  have hlook : ∀ pr ∈ (runSt AnonState.init (sortDesc E)).mapping,
      lookupA pr.2 (reverseMap ((runSt AnonState.init (sortDesc E)).mapping)) =
        some pr.1 := by
    intro pr hpr
    apply mem_lookupA hrevkeysN
    rw [hrev]
    exact List.mem_map.mpr ⟨pr, hpr, rfl⟩
  -- properties of the substitution pair list
  have hps : ∀ pv ∈ (sortLenDesc
        (((runSt AnonState.init (sortDesc E)).mapping).map Prod.snd)).map
        (fun ph => (ph,
          (lookupA ph (reverseMap ((runSt AnonState.init (sortDesc E)).mapping))).getD [])),
      Bracketed pv.1 ∧ Clean pv.2 := by
    intro pv hpv
    obtain ⟨ph, hph, rfl⟩ := List.mem_map.mp hpv
    have hphm : ph ∈ ((runSt AnonState.init (sortDesc E)).mapping).map Prod.snd :=
      hsortedperm.subset hph
    obtain ⟨pr, hpr, hpr2⟩ := List.mem_map.mp hphm
    subst hpr2
    refine ⟨hwfm pr hpr, ?_⟩
    rw [hlook pr hpr]
    exact hkeysClean pr hpr
  -- decomposition of the anonymized text
  have hlogval : ∀ ep ∈ phLog AnonState.init (sortDesc E),
      ep.1.start ≤ ep.1.stop ∧ ep.1.stop ≤ T.length ∧
        ep.1.text = (T.drop ep.1.start).take (ep.1.stop - ep.1.start) := by
    intro ep hep
    have hed : ep.1 ∈ sortDesc E := by
      have := List.mem_map_of_mem Prod.fst hep
      rwa [phLog_fst] at this
    exact ⟨(hvald _ hed).1.le, (hvald _ hed).2.1, (hvald _ hed).2.2⟩
  have hlogpair : ((phLog AnonState.init (sortDesc E)).map Prod.fst).Pairwise
      (fun a b => b.stop ≤ a.start) := by
    rw [phLog_fst]
    exact hstop
  obtain ⟨L, tail, hLeq, hLp, htailp, hrec⟩ :=
    rebuild_decomp (phLog AnonState.init (sortDesc E)) T hlogval hlogpair
  have hLinv : ∀ pr ∈ L, Clean pr.1 ∧ (Bracketed pr.2 ∨ Clean pr.2) := by
    intro pr hpr
    obtain ⟨hcs, ep, hep, hep2⟩ := hLp pr hpr
    refine ⟨fun hc91 => hT (hcs 91 hc91), Or.inl ?_⟩
    have hmem := mem_phLog_mapping hep
    exact hep2 ▸ hwfm _ hmem
  have htailClean : Clean tail := fun hc => hT (htailp 91 hc)
  -- the substitution applied to every slot returns the original value
  have hf : ∀ ep ∈ phLog AnonState.init (sortDesc E),
      (fun q => (lookupA q ((sortLenDesc
          (((runSt AnonState.init (sortDesc E)).mapping).map Prod.snd)).map
          (fun ph => (ph,
            (lookupA ph (reverseMap
              ((runSt AnonState.init (sortDesc E)).mapping))).getD [])))).getD q) ep.2 =
        ep.1.text := by
    intro ep hep
    have hmem : (ep.1.text, ep.2) ∈ (runSt AnonState.init (sortDesc E)).mapping :=
      mem_phLog_mapping hep
    have hphm : ep.2 ∈ ((runSt AnonState.init (sortDesc E)).mapping).map Prod.snd :=
      List.mem_map.mpr ⟨_, hmem, rfl⟩
    have hins : ep.2 ∈ sortLenDesc
        (((runSt AnonState.init (sortDesc E)).mapping).map Prod.snd) :=
      hsortedperm.mem_iff.mpr hphm
    show ((lookupA ep.2 _).getD ep.2) = ep.1.text
    rw [lookupA_map_graph hsortedN hins]
    show (lookupA ep.2 (reverseMap ((runSt AnonState.init (sortDesc E)).mapping))).getD [] =
      ep.1.text
    rw [hlook (ep.1.text, ep.2) hmem]
    rfl
  -- assemble
  rw [hm, hA, hLeq]
  simp only [deanonymize_text]
  rw [hrevfst]
  rw [show (sortLenDesc (((runSt AnonState.init (sortDesc E)).mapping).map Prod.snd)).foldl
      (fun result ph => replaceAll ph
        ((lookupA ph (reverseMap ((runSt AnonState.init (sortDesc E)).mapping))).getD [])
        result) (interleave L tail) =
      ((sortLenDesc (((runSt AnonState.init (sortDesc E)).mapping).map Prod.snd)).map
        (fun ph => (ph,
          (lookupA ph (reverseMap ((runSt AnonState.init (sortDesc E)).mapping))).getD []))).foldl
        (fun s pv => replaceAll pv.1 pv.2 s) (interleave L tail) from
    (List.foldl_map
      (fun ph => (ph,
        (lookupA ph (reverseMap ((runSt AnonState.init (sortDesc E)).mapping))).getD []))
      (fun s pv => replaceAll pv.1 pv.2 s)
      (sortLenDesc (((runSt AnonState.init (sortDesc E)).mapping).map Prod.snd))
      (interleave L tail)).symm]
  rw [foldl_replace_interleave hps hLinv htailClean]
  exact hrec
    (fun q => (lookupA q ((sortLenDesc
        (((runSt AnonState.init (sortDesc E)).mapping).map Prod.snd)).map
        (fun ph => (ph,
          (lookupA ph (reverseMap
            ((runSt AnonState.init (sortDesc E)).mapping))).getD [])))).getD q)
    hf

/-- Witness for the amended C1 on a concrete input. -/
theorem C1_roundtrip_amended_witness :
    ([⟨str "Alice", 0, 5, str "PERSON", str "spacy"⟩,
      ⟨str "Bob", 10, 13, str "PERSON", str "spacy"⟩] : List Entity).Pairwise NonOverlap ∧
    deanonymize_text
      (anonymize_text AnonState.init (str "Alice met Bob")
        [⟨str "Alice", 0, 5, str "PERSON", str "spacy"⟩,
         ⟨str "Bob", 10, 13, str "PERSON", str "spacy"⟩]).1
      (anonymize_text AnonState.init (str "Alice met Bob")
        [⟨str "Alice", 0, 5, str "PERSON", str "spacy"⟩,
         ⟨str "Bob", 10, 13, str "PERSON", str "spacy"⟩]).2 = str "Alice met Bob" := by
  constructor
  · refine List.Pairwise.cons ?_ (List.pairwise_singleton _ _)
    intro b hb
    simp only [List.mem_singleton] at hb
    subst hb
    left
    decide
  · apply C1_roundtrip_amended
    · refine List.Pairwise.cons ?_ (List.pairwise_singleton _ _)
      intro b hb
      simp only [List.mem_singleton] at hb
      subst hb
      left
      decide
    · intro e he
      simp only [List.mem_cons, List.not_mem_nil, or_false] at he
      rcases he with rfl | rfl
      · exact ⟨by decide, by decide, by decide⟩
      · exact ⟨by decide, by decide, by decide⟩
    · show (91 : Nat) ∉ str "Alice met Bob"
      decide
    · intro pr hpr
      have hall : ∀ q ∈ (anonymize_text AnonState.init (str "Alice met Bob")
          [⟨str "Alice", 0, 5, str "PERSON", str "spacy"⟩,
           ⟨str "Bob", 10, 13, str "PERSON", str "spacy"⟩]).2,
          q = (str "Bob", str "[PERSON_1]") ∨ q = (str "Alice", str "[PERSON_2]") := by
        decide
      rcases hall pr hpr with h | h
      · subst h
        exact ⟨str "PERSON_1", by decide, by decide, by decide⟩
      · subst h
        exact ⟨str "PERSON_2", by decide, by decide, by decide⟩

/-! ### C3: merge precedence of pattern entities over model entities -/

theorem insertAsc_perm (e : Entity) (l : List Entity) :
    List.Perm (insertAsc e l) (e :: l) := by
  induction l with
  | nil => rfl
  | cons f rest ih =>
    rw [insertAsc]
    by_cases h : e.start ≤ f.start
    · rw [if_pos h]
    · rw [if_neg h]
      exact (List.Perm.cons f ih).trans (List.Perm.swap e f rest)

theorem sortAsc_perm (l : List Entity) : List.Perm (sortAsc l) l := by
  induction l with
  | nil => rfl
  | cons e rest ih =>
    rw [sortAsc]
    exact (insertAsc_perm e (sortAsc rest)).trans (List.Perm.cons e ih)

theorem has_overlap_mono {pos : Nat × Nat} {seen seen' : List (Nat × Nat)}
    (hsub : seen ⊆ seen') (h : has_overlap pos seen = true) :
    has_overlap pos seen' = true := by
  unfold has_overlap at *
  rw [List.any_eq_true] at *
  obtain ⟨sp, hsp, hp⟩ := h
  exact ⟨sp, hsub hsp, hp⟩

theorem admitSpacy_not_mem {e : Entity} :
    ∀ (seen : List (Nat × Nat)) (l : List Entity),
      has_overlap (e.start, e.stop) seen = true → e ∉ admitSpacy seen l := by
  intro seen l
  induction l generalizing seen with
  | nil =>
    intro _ h
    simp [admitSpacy] at h
  | cons f rest ih =>
    intro hov hmem
    rw [admitSpacy] at hmem
    by_cases hf : has_overlap (f.start, f.stop) seen = true
    · rw [if_pos hf] at hmem
      exact ih seen hov hmem
    · rw [if_neg hf] at hmem
      rcases List.mem_cons.mp hmem with rfl | hmem'
      · exact hf hov
      · exact ih _ (has_overlap_mono (List.subset_cons_self _ _) hov) hmem'

/-- C3: whenever a pattern entity P and a model entity M have intersecting
spans, the merged detection result contains P and excludes M, for every
order in which the two detectors list their entities. -/
theorem C3_merge_precedence (pats mods : List Entity) (P M : Entity)
    (hP : P ∈ pats) (_hM : M ∈ mods)
    (hint : ¬(P.stop ≤ M.start) ∧ ¬(M.stop ≤ P.start))
    (hpm : ∀ e ∈ pats, e.method = str "regex")
    (hMm : M.method = str "spacy") :
    P ∈ detect_pii_merge pats mods ∧ M ∉ detect_pii_merge pats mods := by
  constructor
  · unfold detect_pii_merge
    exact (sortAsc_perm _).mem_iff.mpr (List.mem_append_left _ hP)
  · intro hmem
    unfold detect_pii_merge at hmem
    have hmem' := (sortAsc_perm _).mem_iff.mp hmem
    rcases List.mem_append.mp hmem' with hmem'' | hmem''
    · have h1 := hpm M hmem''
      rw [hMm] at h1
      exact absurd h1 (by decide)
    · have hov : has_overlap (M.start, M.stop)
          (pats.map (fun e => (e.start, e.stop))) = true := by
        unfold has_overlap
        rw [List.any_eq_true]
        refine ⟨(P.start, P.stop), List.mem_map.mpr ⟨P, hP, rfl⟩, ?_⟩
        simp only [Bool.not_eq_true', Bool.or_eq_false_iff, decide_eq_false_iff_not]
        exact ⟨hint.2, hint.1⟩
      exact admitSpacy_not_mem _ _ hov hmem''

/-- Witness for C3: the pattern EMAIL span [0,6) suppresses the overlapping
model PERSON span [0,3). -/
theorem C3_merge_precedence_witness :
    (⟨str "a@b.co", 0, 6, str "EMAIL", str "regex"⟩ : Entity) ∈
      detect_pii_merge [⟨str "a@b.co", 0, 6, str "EMAIL", str "regex"⟩]
        [⟨str "a@b", 0, 3, str "PERSON", str "spacy"⟩] ∧
    (⟨str "a@b", 0, 3, str "PERSON", str "spacy"⟩ : Entity) ∉
      detect_pii_merge [⟨str "a@b.co", 0, 6, str "EMAIL", str "regex"⟩]
        [⟨str "a@b", 0, 3, str "PERSON", str "spacy"⟩] :=
  C3_merge_precedence
    [⟨str "a@b.co", 0, 6, str "EMAIL", str "regex"⟩]
    [⟨str "a@b", 0, 3, str "PERSON", str "spacy"⟩]
    ⟨str "a@b.co", 0, 6, str "EMAIL", str "regex"⟩
    ⟨str "a@b", 0, 3, str "PERSON", str "spacy"⟩
    (by decide) (by decide) ⟨by decide, by decide⟩
    (by decide) (by decide)

/-! ### C2: the sliding-window rate limiter -/

/-- C2: six `check_rate_limit` calls for the same key within the 1-hour
window allow the first five and reject the sixth; the rejection stores the
pruned list unchanged (no new timestamp); a later call made after every
recorded timestamp has left the trailing window allows again (and keeps
only the new timestamp). -/
theorem C2_rate_limit_sequence (u : Nat) (sid : Str) (t1 t2 t3 t4 t5 t6 t7 : Int)
    (h12 : t1 ≤ t2) (h23 : t2 ≤ t3) (h34 : t3 ≤ t4) (h45 : t4 ≤ t5) (h56 : t5 ≤ t6)
    (hwin : t6 - 3600 < t1) (hout : t5 ≤ t7 - 3600) :
    check_rate_limit [] u sid t1 5 1 = (true, [(rateKey u sid, [t1])]) ∧
    check_rate_limit [(rateKey u sid, [t1])] u sid t2 5 1 =
      (true, [(rateKey u sid, [t1, t2])]) ∧
    check_rate_limit [(rateKey u sid, [t1, t2])] u sid t3 5 1 =
      (true, [(rateKey u sid, [t1, t2, t3])]) ∧
    check_rate_limit [(rateKey u sid, [t1, t2, t3])] u sid t4 5 1 =
      (true, [(rateKey u sid, [t1, t2, t3, t4])]) ∧
    check_rate_limit [(rateKey u sid, [t1, t2, t3, t4])] u sid t5 5 1 =
      (true, [(rateKey u sid, [t1, t2, t3, t4, t5])]) ∧
    check_rate_limit [(rateKey u sid, [t1, t2, t3, t4, t5])] u sid t6 5 1 =
      (false, [(rateKey u sid, [t1, t2, t3, t4, t5])]) ∧
    check_rate_limit [(rateKey u sid, [t1, t2, t3, t4, t5])] u sid t7 5 1 =
      (true, [(rateKey u sid, [t7])]) := by
  have hmem : ∀ (l : List Int) (now : Int), (∀ t ∈ l, now - 1 * 3600 < t) →
      l.filter (fun t => decide (now - 1 * 3600 < t)) = l := by
    intro l now h
    rw [List.filter_eq_self]
    intro a ha
    simp only [decide_eq_true_eq]
    exact h a ha
  refine ⟨?_, ?_, ?_, ?_, ?_, ?_, ?_⟩
  · simp only [check_rate_limit]
    norm_num [lookupA, aset]
  · simp only [check_rate_limit]
    rw [show lookupA (rateKey u sid) [(rateKey u sid, [t1])] = some [t1] from by
      simp [lookupA]]
    rw [show (some [t1]).getD [] = [t1] from rfl]
    rw [hmem [t1] t2 (by intro t ht; simp only [List.mem_singleton] at ht; omega)]
    norm_num [aset]
  · simp only [check_rate_limit]
    rw [show lookupA (rateKey u sid) [(rateKey u sid, [t1, t2])] = some [t1, t2] from by
      simp [lookupA]]
    rw [show (some [t1, t2]).getD [] = [t1, t2] from rfl]
    rw [hmem [t1, t2] t3 (by
      intro t ht
      simp only [List.mem_cons, List.mem_singleton, List.not_mem_nil, or_false] at ht
      rcases ht with rfl | rfl <;> omega)]
    norm_num [aset]
  · simp only [check_rate_limit]
    rw [show lookupA (rateKey u sid) [(rateKey u sid, [t1, t2, t3])] =
        some [t1, t2, t3] from by simp [lookupA]]
    rw [show (some [t1, t2, t3]).getD [] = [t1, t2, t3] from rfl]
    rw [hmem [t1, t2, t3] t4 (by
      intro t ht
      simp only [List.mem_cons, List.not_mem_nil, or_false] at ht
      rcases ht with rfl | rfl | rfl <;> omega)]
    norm_num [aset]
  · simp only [check_rate_limit]
    rw [show lookupA (rateKey u sid) [(rateKey u sid, [t1, t2, t3, t4])] =
        some [t1, t2, t3, t4] from by simp [lookupA]]
    rw [show (some [t1, t2, t3, t4]).getD [] = [t1, t2, t3, t4] from rfl]
    rw [hmem [t1, t2, t3, t4] t5 (by
      intro t ht
      simp only [List.mem_cons, List.not_mem_nil, or_false] at ht
      rcases ht with rfl | rfl | rfl | rfl <;> omega)]
    norm_num [aset]
  · simp only [check_rate_limit]
    rw [show lookupA (rateKey u sid) [(rateKey u sid, [t1, t2, t3, t4, t5])] =
        some [t1, t2, t3, t4, t5] from by simp [lookupA]]
    rw [show (some [t1, t2, t3, t4, t5]).getD [] = [t1, t2, t3, t4, t5] from rfl]
    rw [hmem [t1, t2, t3, t4, t5] t6 (by
      intro t ht
      simp only [List.mem_cons, List.not_mem_nil, or_false] at ht
      rcases ht with rfl | rfl | rfl | rfl | rfl <;> omega)]
    norm_num [aset]
  · simp only [check_rate_limit]
    rw [show lookupA (rateKey u sid) [(rateKey u sid, [t1, t2, t3, t4, t5])] =
        some [t1, t2, t3, t4, t5] from by simp [lookupA]]
    rw [show (some [t1, t2, t3, t4, t5]).getD [] = [t1, t2, t3, t4, t5] from rfl]
    rw [show ([t1, t2, t3, t4, t5].filter (fun t => decide (t7 - 1 * 3600 < t))) = []
        from by
      rw [List.filter_eq_nil_iff]
      intro t ht
      simp only [List.mem_cons, List.not_mem_nil, or_false] at ht
      simp only [decide_eq_true_eq]
      rcases ht with rfl | rfl | rfl | rfl | rfl <;> omega]
    norm_num [aset]

/-- Witness for C2 at concrete times. -/
theorem C2_rate_limit_sequence_witness :
    check_rate_limit [] 1 (str "s") 10 5 1 = (true, [(rateKey 1 (str "s"), [10])]) ∧
    check_rate_limit [(rateKey 1 (str "s"), [10])] 1 (str "s") 20 5 1 =
      (true, [(rateKey 1 (str "s"), [10, 20])]) ∧
    check_rate_limit [(rateKey 1 (str "s"), [10, 20])] 1 (str "s") 30 5 1 =
      (true, [(rateKey 1 (str "s"), [10, 20, 30])]) ∧
    check_rate_limit [(rateKey 1 (str "s"), [10, 20, 30])] 1 (str "s") 40 5 1 =
      (true, [(rateKey 1 (str "s"), [10, 20, 30, 40])]) ∧
    check_rate_limit [(rateKey 1 (str "s"), [10, 20, 30, 40])] 1 (str "s") 50 5 1 =
      (true, [(rateKey 1 (str "s"), [10, 20, 30, 40, 50])]) ∧
    check_rate_limit [(rateKey 1 (str "s"), [10, 20, 30, 40, 50])] 1 (str "s") 60 5 1 =
      (false, [(rateKey 1 (str "s"), [10, 20, 30, 40, 50])]) ∧
    check_rate_limit [(rateKey 1 (str "s"), [10, 20, 30, 40, 50])] 1 (str "s") 99999 5 1 =
      (true, [(rateKey 1 (str "s"), [99999])]) :=
  C2_rate_limit_sequence 1 (str "s") 10 20 30 40 50 60 99999
    (by norm_num) (by norm_num) (by norm_num) (by norm_num) (by norm_num)
    (by norm_num) (by norm_num)

/-! ### C8: the can-decrypt query is read-only and reuses the pruning -/

/-- C8: `check_decrypt_permission` leaves `decrypt_attempts` exactly as it
was for every key, and when it answers it computes the remaining attempts
from the same trailing-window pruning as `check_rate_limit`: its
`can_decrypt` flag agrees with the allow flag `check_rate_limit` would
return on the same state. -/
theorem C8_permission_query_pure (attempts : AttemptMap) (current_user : User)
    (session_id : Str) (db : List SessionRec) (now : Int) :
    (check_decrypt_permission attempts current_user session_id db now).2 = attempts ∧
    (∀ b r, (check_decrypt_permission attempts current_user session_id db now).1 =
        some (b, r) →
      r = 5 - ((((lookupA (rateKey current_user.id session_id) attempts).getD []).filter
          (fun t => decide (now - 1 * 3600 < t))).length) ∧
      b = (check_rate_limit attempts current_user.id session_id now 5 1).1) := by
  have hcut : ∀ t : Int, decide (now - 3600 < t) = decide (now - 1 * 3600 < t) := by
    intro t
    by_cases h : now - 3600 < t
    · rw [decide_eq_true h, decide_eq_true (by omega : now - 1 * 3600 < t)]
    · rw [decide_eq_false h, decide_eq_false (by omega : ¬ now - 1 * 3600 < t)]
  have hrecent : (match lookupA (rateKey current_user.id session_id) attempts with
      | some lst => lst.filter (fun t => decide (now - 3600 < t))
      | none => []) =
      ((lookupA (rateKey current_user.id session_id) attempts).getD []).filter
        (fun t => decide (now - 1 * 3600 < t)) := by
    cases hl : lookupA (rateKey current_user.id session_id) attempts with
    | none => rfl
    | some lst =>
      show lst.filter (fun t => decide (now - 3600 < t)) =
        lst.filter (fun t => decide (now - 1 * 3600 < t))
      have hfun : (fun t : Int => decide (now - 3600 < t)) =
          (fun t : Int => decide (now - 1 * 3600 < t)) := funext hcut
      rw [hfun]
  constructor
  · unfold check_decrypt_permission
    split <;> rfl
  · intro b r hbr
    unfold check_decrypt_permission at hbr
    cases hfs : findSession db session_id current_user.id with
    | none =>
      rw [hfs] at hbr
      simp at hbr
    | some s =>
      rw [hfs] at hbr
      simp only [Option.some.injEq, Prod.mk.injEq] at hbr
      obtain ⟨hb, hr⟩ := hbr
      rw [hrecent] at hb hr
      refine ⟨hr.symm, ?_⟩
      rw [← hb]
      unfold check_rate_limit
      by_cases hlim : 5 ≤ ((((lookupA (rateKey current_user.id session_id)
          attempts).getD []).filter (fun t => decide (now - 1 * 3600 < t))).length)
      · rw [if_pos hlim]
        simp only [decide_eq_false_iff_not]
        omega
      · rw [if_neg hlim]
        simp only [decide_eq_true_eq]
        omega

/-- Witness for C8: a state with one session and two recorded attempts. -/
theorem C8_permission_query_pure_witness :
    (check_decrypt_permission [(rateKey 1 (str "s"), [10, 20])] ⟨1, str "h"⟩ (str "s")
        [⟨str "s", 1, str ""⟩] 30).2 = [(rateKey 1 (str "s"), [10, 20])] ∧
    (3 = 5 - ((((lookupA (rateKey 1 (str "s"))
          [(rateKey 1 (str "s"), [10, 20])]).getD []).filter
        (fun t => decide ((30 : Int) - 1 * 3600 < t))).length) ∧
      true = (check_rate_limit [(rateKey 1 (str "s"), [10, 20])] 1 (str "s") 30 5 1).1) :=
  ⟨(C8_permission_query_pure [(rateKey 1 (str "s"), [10, 20])] ⟨1, str "h"⟩ (str "s")
      [⟨str "s", 1, str ""⟩] 30).1,
   (C8_permission_query_pure [(rateKey 1 (str "s"), [10, 20])] ⟨1, str "h"⟩ (str "s")
      [⟨str "s", 1, str ""⟩] 30).2 true 3 (by decide)⟩

/-! ### C9: a decrypt request for a missing session still consumes a slot -/

/-- C9: in `decrypt_document` the rate limiter runs (and records an attempt)
before the session lookup, so a request for a nonexistent or not-owned
session returns not-found, appends the pruned-plus-now timestamp list for
the key, performs no password check and writes no audit row — for every
password. -/
theorem C9_notfound_consumes_attempt (attempts : AttemptMap) (current_user : User)
    (session_id password : Str) (db : List SessionRec) (audit : List AuditRec)
    (now : Int)
    (hns : findSession db session_id current_user.id = none)
    (hunder : ((((lookupA (rateKey current_user.id session_id) attempts).getD []).filter
        (fun t => decide (now - 1 * 3600 < t))).length) < 5) :
    decrypt_document attempts current_user session_id password db audit now =
      (DecryptOutcome.notFound,
       aset (rateKey current_user.id session_id)
         (((((lookupA (rateKey current_user.id session_id) attempts).getD []).filter
            (fun t => decide (now - 1 * 3600 < t)))) ++ [now]) attempts,
       audit) := by
  have hcrl : check_rate_limit attempts current_user.id session_id now 5 1 =
      (true,
       aset (rateKey current_user.id session_id)
         (((((lookupA (rateKey current_user.id session_id) attempts).getD []).filter
            (fun t => decide (now - 1 * 3600 < t)))) ++ [now]) attempts) := by
    unfold check_rate_limit
    rw [if_neg (by omega)]
  unfold decrypt_document
  rw [hcrl]
  rw [if_neg (by simp)]
  rw [hns]

/-- Witness for C9: empty database, one prior attempt recorded. -/
theorem C9_notfound_consumes_attempt_witness :
    decrypt_document [(rateKey 7 (str "sess"), [50])] ⟨7, str "h"⟩ (str "sess")
        (str "pw") [] [] 100 =
      (DecryptOutcome.notFound,
       aset (rateKey 7 (str "sess"))
         (((((lookupA (rateKey 7 (str "sess"))
              [(rateKey 7 (str "sess"), [50])]).getD []).filter
            (fun t => decide ((100 : Int) - 1 * 3600 < t)))) ++ [100])
         [(rateKey 7 (str "sess"), [50])],
       []) :=
  C9_notfound_consumes_attempt [(rateKey 7 (str "sess"), [50])] ⟨7, str "h"⟩
    (str "sess") (str "pw") [] [] 100 (by decide) (by decide)

/-! ### C6 and C10: encryption round trip and the empty string -/

theorem derive_key_length : (derive_key secret_key).length = 32 := by
  simp [derive_key]

theorem derive_key_lt : ∀ b ∈ derive_key secret_key, b < 256 := by
  intro b hb
  unfold derive_key at hb
  have := List.take_subset 32 _ hb
  rcases List.mem_append.mp this with h | h
  · obtain ⟨c, _, rfl⟩ := List.mem_map.mp h
    omega
  · rw [List.eq_of_mem_replicate h]
    omega

theorem utf8encode_cons (c : Nat) (s : Str) :
    utf8encode (c :: s) = c / 65536 :: (c / 256) % 256 :: c % 256 :: utf8encode s := rfl

theorem utf8encode_lt {s : Str} (h : ∀ c ∈ s, c < 1114112) :
    ∀ b ∈ utf8encode s, b < 256 := by
  induction s with
  | nil =>
    intro b hb
    simp [utf8encode] at hb
  | cons c s' ih =>
    intro b hb
    rw [utf8encode_cons] at hb
    have hc := h c (List.mem_cons_self _ _)
    rcases List.mem_cons.mp hb with rfl | hb'
    · omega
    rcases List.mem_cons.mp hb' with rfl | hb''
    · omega
    rcases List.mem_cons.mp hb'' with rfl | hb'''
    · omega
    · exact ih (fun d hd => h d (List.mem_cons_of_mem _ hd)) b hb'''

theorem utf8_roundtrip {s : Str} (h : ∀ c ∈ s, c < 1114112) :
    utf8decode (utf8encode s) = some s := by
  induction s with
  | nil => rfl
  | cons c s' ih =>
    rw [utf8encode_cons]
    show (match utf8decode (utf8encode s') with
      | some t => some ((c / 65536 * 65536 + (c / 256) % 256 * 256 + c % 256) :: t)
      | none => none) = some (c :: s')
    rw [ih (fun d hd => h d (List.mem_cons_of_mem _ hd))]
    have hc := h c (List.mem_cons_self _ _)
    have : c / 65536 * 65536 + (c / 256) % 256 * 256 + c % 256 = c := by omega
    rw [this]

theorem b64encode_cons (b : Nat) (bs : List Nat) :
    b64encode (b :: bs) = (b / 16 + 65) :: (b % 16 + 65) :: b64encode bs := rfl

theorem b64_roundtrip {bs : List Nat} (h : ∀ b ∈ bs, b < 256) :
    b64decode (b64encode bs) = some bs := by
  induction bs with
  | nil => rfl
  | cons b rest ih =>
    rw [b64encode_cons]
    have hb := h b (List.mem_cons_self _ _)
    show (if 65 ≤ b / 16 + 65 ∧ b / 16 + 65 < 81 ∧ 65 ≤ b % 16 + 65 ∧ b % 16 + 65 < 81 then
        match b64decode (b64encode rest) with
        | some bs => some (((b / 16 + 65 - 65) * 16 + (b % 16 + 65 - 65)) :: bs)
        | none => none
      else none) = some (b :: rest)
    rw [if_pos (by omega)]
    rw [ih (fun d hd => h d (List.mem_cons_of_mem _ hd))]
    have : (b / 16 + 65 - 65) * 16 + (b % 16 + 65 - 65) = b := by omega
    rw [this]

theorem fernet_roundtrip (msg : List Nat) :
    fernetDecrypt (derive_key secret_key) (fernetEncrypt (derive_key secret_key) msg) =
      some msg := by
  unfold fernetDecrypt fernetEncrypt
  rw [if_pos]
  · rw [← derive_key_length, List.drop_left]
  · rw [← derive_key_length, List.take_left]

theorem b64encode_ne_nil {bs : List Nat} (h : bs ≠ []) : b64encode bs ≠ [] := by
  cases bs with
  | nil => exact absurd rfl h
  | cons b rest =>
    rw [b64encode_cons]
    simp

/-- C6: decrypting an encryption returns the plaintext for every non-empty
string, and encrypting the empty string returns the empty string rather
than an encryption of it. -/
theorem C6_encrypt_roundtrip (S : Str) (hne : S ≠ []) (hcp : ∀ c ∈ S, c < 1114112) :
    decrypt_text (encrypt_text S) = Except.ok S ∧ encrypt_text [] = [] := by
  refine ⟨?_, rfl⟩
  have henc : encrypt_text S =
      b64encode (fernetEncrypt (derive_key secret_key) (utf8encode S)) := by
    unfold encrypt_text
    rw [if_neg hne]
  have hbytes : ∀ b ∈ fernetEncrypt (derive_key secret_key) (utf8encode S), b < 256 := by
    intro b hb
    rcases List.mem_append.mp hb with hb' | hb'
    · exact derive_key_lt b hb'
    · exact utf8encode_lt hcp b hb'
  have hnn : fernetEncrypt (derive_key secret_key) (utf8encode S) ≠ [] := by
    unfold fernetEncrypt
    intro hz
    have := congrArg List.length hz
    simp only [List.length_append, List.length_nil] at this
    rw [derive_key_length] at this
    omega
  rw [henc]
  unfold decrypt_text
  rw [if_neg (b64encode_ne_nil hnn)]
  rw [b64_roundtrip hbytes]
  simp only [fernet_roundtrip, utf8_roundtrip hcp]

/-- Witness for C6 at a concrete plaintext. -/
theorem C6_encrypt_roundtrip_witness :
    decrypt_text (encrypt_text (str "hello")) = Except.ok (str "hello") ∧
    encrypt_text [] = [] :=
  C6_encrypt_roundtrip (str "hello") (by decide) (by decide)

/-- C10: `decrypt_text` on the empty string returns the empty string via the
guard branch, without entering the decryption path or raising. -/
theorem C10_decrypt_empty : decrypt_text [] = Except.ok [] := rfl

end PIIAnon
